import Mathlib

/-!
# Reference-validator: verified shallow embedding

This file embeds the core algorithms of the `reference_validator` scripts
(`validate.py`, `crossref_arxiv.py`, `cvf_openreview.py`, `final_filter.py`,
`check_semantic.py`, `bs_check.py`) as executable Lean definitions and proves
properties of them.

Conventions used throughout:
* Python strings are `String`/`List Char`; `str.strip()` is `String.trim`,
  `str.lower()` is `String.toLower` (ASCII-faithful).
* Python floats are modelled by exact rationals `ℚ`; the scripts only build
  ratios `2*M/T` and compare them against constant thresholds, which the
  rational model reproduces.
* `difflib.SequenceMatcher(None, a, b).ratio()` is embedded by the actual
  CPython algorithm (longest-matching-block dynamic programming, recursive
  block decomposition, the non-junk extension loops).  The junk/autojunk
  heuristics are not modelled: they only change behaviour for second
  arguments of length ≥ 200, which the scripts never rely on.
* Python dicts of strings are association lists `List (String × String)`
  with lookup defaulting to `""` (Python's `d.get(k, "")`), and field update
  keeping the position of an existing key.
-/

namespace RefValidator

/-! ## difflib.SequenceMatcher (junk-free), as used by the scripts

`find_longest_match` keeps a running best block `(besti, bestj, bestsize)`.
We represent it by the structure `Best`. -/

/-- The running best matching block of `find_longest_match`. -/
structure Best where
  i : Nat
  j : Nat
  sz : Nat
deriving Repr, DecidableEq

@[simp] theorem Best_i_mk (i j sz : Nat) : (Best.mk i j sz).i = i := rfl

@[simp] theorem Best_j_mk (i j sz : Nat) : (Best.mk i j sz).j = j := rfl

@[simp] theorem Best_sz_mk (i j sz : Nat) : (Best.mk i j sz).sz = sz := rfl

/-- The ascending list of positions `j ∈ [blo, bhi)` with `b[j] = c`:
difflib's `b2j[c]` restricted by the `j < blo: continue / j >= bhi: break`
guards of the inner loop. -/
def posns (b : List Char) (c : Char) (blo bhi : Nat) : List Nat :=
  (List.range b.length).filter (fun j => blo ≤ j && j < bhi && b.getD j ' ' == c)

/-- Lookup in the `j2len` association map, defaulting to `0`
(Python's `j2len.get(j, 0)`). -/
def alGet (m : List (Nat × Nat)) (j : Nat) : Nat :=
  match m.find? (fun p => p.1 == j) with
  | some p => p.2
  | none => 0

/-- The length value the DP assigns at row `i`, column `j`:
`j2len.get(j-1, 0) + 1`, where a key `-1` (Python) is never present,
modelled by the `j = 0` guard. -/
def kval (prev : List (Nat × Nat)) (j : Nat) : Nat :=
  (if j = 0 then 0 else alGet prev (j - 1)) + 1

/-- One row of the `find_longest_match` DP: iterate over the column
positions `js` of the current character, building the new `j2len` row and
updating the best block (`if k > bestsize: besti, bestj, bestsize = i-k+1,
j-k+1, k`). -/
def flmRow (prev : List (Nat × Nat)) (i : Nat) :
    List Nat → List (Nat × Nat) → Best → List (Nat × Nat) × Best
  | [], row, best => (row, best)
  | j :: js, row, best =>
      let k := kval prev j
      flmRow prev i js (row ++ [(j, k)])
        (if best.sz < k then ⟨i + 1 - k, j + 1 - k, k⟩ else best)

/-- The row-by-row DP loop of `find_longest_match` over `i ∈ [alo, ahi)`. -/
def flmCore (a b : List Char) (alo ahi blo bhi : Nat) : Best :=
  ((List.range' alo (ahi - alo)).foldl
    (fun (st : List (Nat × Nat) × Best) i =>
      flmRow st.1 i (posns b (a.getD i ' ') blo bhi) [] st.2)
    ([], ⟨alo, blo, 0⟩)).2

/-- `a[i] == b[j]`, total: false when either index is out of range.  In the
extension loops of `find_longest_match` the indices are always in range. -/
def chEq (a b : List Char) (i j : Nat) : Bool :=
  match a.get? i, b.get? j with
  | some x, some y => x == y
  | _, _ => false

/-- The left extension loop of `find_longest_match`
(`while besti > alo and bestj > blo and a[besti-1] == b[bestj-1]: ...`);
with no junk the junk variants of the loop never fire.  The loop decrements
`besti` by one each iteration, so with `besti` itself as fuel the structural
recursion below runs the loop exactly: when the fuel hits `0` we have
`besti = 0` and the `besti > alo` guard is false anyway. -/
def extendLeftF (a b : List Char) (alo blo : Nat) :
    Nat → Nat → Nat → Nat → Best
  | 0, bi, bj, bs => ⟨bi, bj, bs⟩
  | fuel + 1, bi, bj, bs =>
      if alo < bi ∧ blo < bj ∧ chEq a b (bi - 1) (bj - 1) then
        extendLeftF a b alo blo fuel (bi - 1) (bj - 1) (bs + 1)
      else ⟨bi, bj, bs⟩

def extendLeft (a b : List Char) (alo blo bi bj bs : Nat) : Best :=
  extendLeftF a b alo blo bi bi bj bs

/-- The right extension loop of `find_longest_match`
(`while besti+bestsize < ahi and ... and a[besti+bestsize] ==
b[bestj+bestsize]: bestsize += 1`); the loop runs at most
`ahi - (besti+bestsize)` times, and when that fuel is `0` its guard is
false anyway. -/
def extendRightF (a b : List Char) (ahi bhi bi bj : Nat) : Nat → Nat → Nat
  | 0, bs => bs
  | fuel + 1, bs =>
      if bi + bs < ahi ∧ bj + bs < bhi ∧ chEq a b (bi + bs) (bj + bs) then
        extendRightF a b ahi bhi bi bj fuel (bs + 1)
      else bs

def extendRight (a b : List Char) (ahi bhi bi bj bs : Nat) : Nat :=
  extendRightF a b ahi bhi bi bj (ahi - (bi + bs)) bs

/-- The two extension loops applied to the DP's best block. -/
def flmPost (a b : List Char) (alo ahi blo bhi : Nat) (d : Best) : Best :=
  let l := extendLeft a b alo blo d.i d.j d.sz
  ⟨l.i, l.j, extendRight a b ahi bhi l.i l.j l.sz⟩

/-- `SequenceMatcher.find_longest_match(alo, ahi, blo, bhi)` (no junk). -/
def flm (a b : List Char) (alo ahi blo bhi : Nat) : Best :=
  flmPost a b alo ahi blo bhi (flmCore a b alo ahi blo bhi)

/-! ### Range invariants of `find_longest_match`

The DP rows only ever hold plausible suffix-match lengths, which bounds the
best block inside the requested ranges.  These bounds justify termination of
the recursive block decomposition below. -/

/-- Invariant of a `j2len` row: keys lie in `[blo, bhi)` and values are
positive suffix-match lengths bounded by both coordinates. -/
def RowB (alo blo bhi bound : Nat) (row : List (Nat × Nat)) : Prop :=
  ∀ p ∈ row, blo ≤ p.1 ∧ p.1 < bhi ∧ 1 ≤ p.2 ∧ p.2 + blo ≤ p.1 + 1 ∧ p.2 + alo ≤ bound

/-- Invariant of the best block: it lies inside the requested ranges. -/
def BestB (alo ahi blo bhi : Nat) (x : Best) : Prop :=
  alo ≤ x.i ∧ x.i + x.sz ≤ ahi ∧ blo ≤ x.j ∧ x.j + x.sz ≤ bhi

theorem alGet_cases (m : List (Nat × Nat)) (j : Nat) :
    alGet m j = 0 ∨ ∃ p ∈ m, p.1 = j ∧ p.2 = alGet m j := by
  unfold alGet
  cases h : m.find? (fun p => p.1 == j) with
  | none => exact Or.inl rfl
  | some p =>
      refine Or.inr ⟨p, List.mem_of_find?_eq_some h, ?_, rfl⟩
      have := List.find?_some h
      simpa using this

theorem kval_bound {alo blo bhi i : Nat} {prev : List (Nat × Nat)}
    (hprev : RowB alo blo bhi i prev) (j : Nat) (hj : blo ≤ j)
    (hi : alo ≤ i) :
    kval prev j + alo ≤ i + 1 ∧ kval prev j + blo ≤ j + 1 := by
  unfold kval
  by_cases h0 : j = 0
  · subst h0; simp; omega
  · simp only [if_neg h0]
    rcases alGet_cases prev (j - 1) with h | ⟨p, hp, hkey, hval⟩
    · rw [h]; omega
    · have := hprev p hp
      omega

theorem posns_mem_iff {b : List Char} {c : Char} {blo bhi j : Nat} :
    j ∈ posns b c blo bhi ↔ j < b.length ∧ blo ≤ j ∧ j < bhi ∧ b.getD j ' ' = c := by
  unfold posns
  simp [List.mem_filter, List.mem_range, and_assoc]

theorem posns_empty {b : List Char} {c : Char} {blo bhi : Nat} (h : bhi ≤ blo) :
    posns b c blo bhi = [] := by
  apply List.eq_nil_iff_forall_not_mem.mpr
  intro j hj
  rcases posns_mem_iff.mp hj with ⟨_, h1, h2, _⟩
  omega

theorem flmRow_inv {alo ahi blo bhi i : Nat}
    {prev : List (Nat × Nat)}
    (hprev : RowB alo blo bhi i prev) (hi : alo ≤ i) (hiu : i < ahi) :
    ∀ (js : List Nat) (row : List (Nat × Nat)) (best : Best),
      (∀ j ∈ js, blo ≤ j ∧ j < bhi) →
      RowB alo blo bhi (i + 1) row → BestB alo ahi blo bhi best →
      RowB alo blo bhi (i + 1) (flmRow prev i js row best).1 ∧
      BestB alo ahi blo bhi (flmRow prev i js row best).2 := by
  intro js
  induction js with
  | nil => intro row best _ hrow hbest; exact ⟨hrow, hbest⟩
  | cons j js ih =>
      intro row best hjs hrow hbest
      have hj := hjs j (by simp)
      have hk := kval_bound hprev j hj.1 hi
      rw [flmRow]
      apply ih
      · intro j' hj'; exact hjs j' (by simp [hj'])
      · intro p hp
        rcases List.mem_append.mp hp with h | h
        · exact hrow p h
        · simp at h
          subst h
          exact ⟨hj.1, hj.2, Nat.le_add_left 1 _, hk.2, hk.1⟩
      · split
        · refine ⟨?_, ?_, ?_, ?_⟩ <;> simp <;> omega
        · exact hbest

theorem flmCore_fold_inv {a b : List Char} {alo ahi blo bhi : Nat} :
    ∀ (n i : Nat) (prev : List (Nat × Nat)) (best : Best),
      RowB alo blo bhi i prev → BestB alo ahi blo bhi best →
      alo ≤ i → i + n ≤ ahi →
      BestB alo ahi blo bhi
        (((List.range' i n).foldl
          (fun (st : List (Nat × Nat) × Best) i =>
            flmRow st.1 i (posns b (a.getD i ' ') blo bhi) [] st.2)
          (prev, best)).2) := by
  intro n
  induction n with
  | zero => intro i prev best _ hbest _ _; simpa using hbest
  | succ n ih =>
      intro i prev best hprev hbest hi hn
      rw [List.range'_succ, List.foldl_cons]
      have hstep := flmRow_inv hprev hi (by omega)
        (posns b (a.getD i ' ') blo bhi) [] best
        (fun j hj => by
          rcases posns_mem_iff.mp hj with ⟨_, h1, h2, _⟩; exact ⟨h1, h2⟩)
        (by intro p hp; simp at hp) hbest
      exact ih (i + 1)
        (flmRow prev i (posns b (a.getD i ' ') blo bhi) [] best).1
        (flmRow prev i (posns b (a.getD i ' ') blo bhi) [] best).2
        hstep.1 hstep.2 (by omega) (by omega)

theorem flmCore_bestB {a b : List Char} {alo ahi blo bhi : Nat}
    (hA : alo ≤ ahi) (hB : blo ≤ bhi) :
    BestB alo ahi blo bhi (flmCore a b alo ahi blo bhi) := by
  unfold flmCore
  have := @flmCore_fold_inv a b alo ahi blo bhi (ahi - alo) alo [] ⟨alo, blo, 0⟩
    (by intro p hp; simp at hp)
    (by refine ⟨le_refl _, ?_, le_refl _, ?_⟩ <;> simp <;> omega)
    (le_refl _) (by omega)
  exact this

theorem extendLeftF_bestB {a b : List Char} {alo ahi blo bhi : Nat} :
    ∀ fuel bi bj bs, alo ≤ bi → blo ≤ bj → bi + bs ≤ ahi → bj + bs ≤ bhi →
      BestB alo ahi blo bhi (extendLeftF a b alo blo fuel bi bj bs) := by
  intro fuel
  induction fuel with
  | zero =>
      intro bi bj bs h1 h2 h3 h4
      exact ⟨h1, h3, h2, h4⟩
  | succ fuel ih =>
      intro bi bj bs h1 h2 h3 h4
      simp only [extendLeftF]
      split
      · next h =>
          exact ih (bi - 1) (bj - 1) (bs + 1)
            (by omega) (by omega) (by omega) (by omega)
      · exact ⟨h1, h3, h2, h4⟩

theorem extendLeft_bestB {a b : List Char} {alo ahi blo bhi : Nat} :
    ∀ bi bj bs, alo ≤ bi → blo ≤ bj → bi + bs ≤ ahi → bj + bs ≤ bhi →
      BestB alo ahi blo bhi (extendLeft a b alo blo bi bj bs) := by
  intro bi bj bs h1 h2 h3 h4
  unfold extendLeft
  exact extendLeftF_bestB bi bi bj bs h1 h2 h3 h4

theorem extendRightF_le {a b : List Char} {ahi bhi bi bj : Nat} :
    ∀ fuel bs,
      bi + extendRightF a b ahi bhi bi bj fuel bs ≤ ahi ∧
      bj + extendRightF a b ahi bhi bi bj fuel bs ≤ bhi ∨
      extendRightF a b ahi bhi bi bj fuel bs = bs := by
  intro fuel
  induction fuel with
  | zero => intro bs; exact Or.inr rfl
  | succ fuel ih =>
      intro bs
      simp only [extendRightF]
      split
      · next h =>
          rcases ih (bs + 1) with h' | h'
          · exact Or.inl h'
          · rw [h']; left; omega
      · exact Or.inr rfl

theorem extendRight_le {a b : List Char} {ahi bhi : Nat} :
    ∀ bi bj bs,
      bi + extendRight a b ahi bhi bi bj bs ≤ ahi ∧
      bj + extendRight a b ahi bhi bi bj bs ≤ bhi ∨
      extendRight a b ahi bhi bi bj bs = bs := by
  intro bi bj bs
  unfold extendRight
  exact extendRightF_le _ bs

theorem flmPost_range (a b : List Char) {alo ahi blo bhi : Nat} (d : Best)
    (hd : BestB alo ahi blo bhi d) :
    alo ≤ (flmPost a b alo ahi blo bhi d).i ∧
    blo ≤ (flmPost a b alo ahi blo bhi d).j ∧
    ((flmPost a b alo ahi blo bhi d).sz ≠ 0 →
      (flmPost a b alo ahi blo bhi d).i + (flmPost a b alo ahi blo bhi d).sz ≤ ahi ∧
      (flmPost a b alo ahi blo bhi d).j + (flmPost a b alo ahi blo bhi d).sz ≤ bhi) := by
  obtain ⟨h1, h2, h3, h4⟩ := hd
  obtain ⟨e1, e2, e3, e4⟩ := @extendLeft_bestB a b alo ahi blo bhi
    d.i d.j d.sz h1 h3 h2 h4
  rcases @extendRight_le a b ahi bhi
    (extendLeft a b alo blo d.i d.j d.sz).i
    (extendLeft a b alo blo d.i d.j d.sz).j
    (extendLeft a b alo blo d.i d.j d.sz).sz with h | h
  · exact ⟨e1, e3, fun _ => h⟩
  · refine ⟨e1, e3, fun _ => ?_⟩
    have hsz : (flmPost a b alo ahi blo bhi d).sz =
        (extendLeft a b alo blo d.i d.j d.sz).sz := h
    rw [hsz]
    exact ⟨e2, e4⟩

theorem extendLeftF_stop (a b : List Char) (alo blo fuel bi bj bs : Nat)
    (h : ¬(alo < bi ∧ blo < bj ∧ chEq a b (bi - 1) (bj - 1))) :
    extendLeftF a b alo blo fuel bi bj bs = ⟨bi, bj, bs⟩ := by
  cases fuel with
  | zero => rfl
  | succ fuel =>
      simp only [extendLeftF]
      rw [if_neg h]

theorem extendRightF_stop (a b : List Char) (ahi bhi bi bj fuel bs : Nat)
    (h : ¬(bi + bs < ahi ∧ bj + bs < bhi ∧ chEq a b (bi + bs) (bj + bs))) :
    extendRightF a b ahi bhi bi bj fuel bs = bs := by
  cases fuel with
  | zero => rfl
  | succ fuel =>
      simp only [extendRightF]
      rw [if_neg h]

theorem flmPost_trivial (a b : List Char) {alo ahi blo bhi : Nat}
    (hdeg : ahi ≤ alo ∨ bhi ≤ blo) :
    flmPost a b alo ahi blo bhi ⟨alo, blo, 0⟩ = ⟨alo, blo, 0⟩ := by
  have hL : extendLeft a b alo blo alo blo 0 = ⟨alo, blo, 0⟩ := by
    unfold extendLeft
    exact extendLeftF_stop a b alo blo alo alo blo 0 (by omega)
  have hR : extendRight a b ahi bhi alo blo 0 = 0 := by
    unfold extendRight
    exact extendRightF_stop a b ahi bhi alo blo _ 0 (by omega)
  simp [flmPost, hL, hR]

theorem flm_range (a b : List Char) (alo ahi blo bhi : Nat) :
    alo ≤ (flm a b alo ahi blo bhi).i ∧ blo ≤ (flm a b alo ahi blo bhi).j ∧
      ((flm a b alo ahi blo bhi).sz ≠ 0 →
        (flm a b alo ahi blo bhi).i + (flm a b alo ahi blo bhi).sz ≤ ahi ∧
        (flm a b alo ahi blo bhi).j + (flm a b alo ahi blo bhi).sz ≤ bhi) := by
  by_cases hA : alo ≤ ahi
  · by_cases hB : blo ≤ bhi
    · exact flmPost_range a b _ (flmCore_bestB hA hB)
    · -- degenerate: empty b-range, the DP never updates and extensions never fire
      push_neg at hB
      have hcore : flmCore a b alo ahi blo bhi = ⟨alo, blo, 0⟩ := by
        unfold flmCore
        have key : ∀ (l : List Nat) (prev : List (Nat × Nat)),
            (l.foldl (fun (st : List (Nat × Nat) × Best) i =>
              flmRow st.1 i (posns b (a.getD i ' ') blo bhi) [] st.2)
              (prev, ⟨alo, blo, 0⟩)).2 = ⟨alo, blo, 0⟩ := by
          intro l
          induction l with
          | nil => intro prev; rfl
          | cons x l ih =>
              intro prev
              rw [List.foldl_cons, posns_empty (by omega), flmRow]
              exact ih _
        exact key _ []
      have hflm : flm a b alo ahi blo bhi = ⟨alo, blo, 0⟩ := by
        unfold flm
        rw [hcore, flmPost_trivial a b (Or.inr (by omega))]
      rw [hflm]
      exact ⟨by simp, by simp, by simp⟩
  · -- degenerate: empty a-range
    push_neg at hA
    have hcore : flmCore a b alo ahi blo bhi = ⟨alo, blo, 0⟩ := by
      unfold flmCore
      have hz : ahi - alo = 0 := by omega
      rw [hz]
      rfl
    have hflm : flm a b alo ahi blo bhi = ⟨alo, blo, 0⟩ := by
      unfold flm
      rw [hcore, flmPost_trivial a b (Or.inl (by omega))]
    rw [hflm]
    exact ⟨by simp, by simp, by simp⟩

/-! ### `get_matching_blocks` and `ratio`

`get_matching_blocks` recursively splits the ranges around the longest
match; `ratio` only needs the total size `M` of all matching blocks (the
adjacent-block merging pass preserves the sum), so we embed the recursion
directly as that sum. -/

/-- Total size of the matching blocks produced by `get_matching_blocks`
on the range `[alo, ahi) × [blo, bhi)`.  Every recursive call strictly
shrinks the measure `(ahi - alo) + (bhi - blo)` (by `flm_range` a nonzero
block lies inside the range), so running the recursion with that measure
as fuel is exact: at fuel `0` the ranges are empty, the block size is `0`
and both versions return `0`. -/
def matchSumF (a b : List Char) : Nat → Nat → Nat → Nat → Nat → Nat
  | 0, _, _, _, _ => 0
  | fuel + 1, alo, ahi, blo, bhi =>
      if (flm a b alo ahi blo bhi).sz = 0 then 0
      else
        (if alo < (flm a b alo ahi blo bhi).i ∧ blo < (flm a b alo ahi blo bhi).j then
          matchSumF a b fuel alo (flm a b alo ahi blo bhi).i blo (flm a b alo ahi blo bhi).j
        else 0)
        + (flm a b alo ahi blo bhi).sz +
        (if (flm a b alo ahi blo bhi).i + (flm a b alo ahi blo bhi).sz < ahi ∧
            (flm a b alo ahi blo bhi).j + (flm a b alo ahi blo bhi).sz < bhi then
          matchSumF a b fuel ((flm a b alo ahi blo bhi).i + (flm a b alo ahi blo bhi).sz) ahi
            ((flm a b alo ahi blo bhi).j + (flm a b alo ahi blo bhi).sz) bhi
        else 0)

def matchSum (a b : List Char) (alo ahi blo bhi : Nat) : Nat :=
  matchSumF a b ((ahi - alo) + (bhi - blo)) alo ahi blo bhi

/-- `SequenceMatcher(None, a, b).ratio()` as an exact rational:
`2*M/T`, and `1` when both sequences are empty (CPython's
`_calculate_ratio`). -/
def ratio (a b : List Char) : ℚ :=
  if a.length + b.length = 0 then 1
  else (2 * (matchSum a b 0 a.length 0 b.length) : ℚ) / (a.length + b.length)

/-- `check_semantic.similarity(a, b)`: the raw `SequenceMatcher` ratio in
`[0, 1]`; no case folding is applied by the function itself. -/
def similarity (a b : String) : ℚ :=
  ratio a.toList b.toList

/-- `crossref_arxiv.fuzzy_ratio(a, b)`: `difflib` ratio × 100, in `[0, 100]`. -/
def fuzzy_ratio (a b : String) : ℚ :=
  similarity a b * 100

/-! ## Python string primitives

The Lean core `String` functions (`trim`, `toLower`, `splitOn`) are
compiled externally and do not reduce inside the kernel, so the Python
string operations are modelled directly on character lists. -/

/-- `str.strip()`: drop whitespace from both ends. -/
def stripChars (l : List Char) : List Char :=
  ((l.dropWhile Char.isWhitespace).reverse.dropWhile Char.isWhitespace).reverse

/-- `str.strip()` on strings. -/
def pyStrip (s : String) : String :=
  String.mk (stripChars s.toList)

/-- `str.lower()` (ASCII-faithful). -/
def pyLower (s : String) : String :=
  String.mk (s.toList.map Char.toLower)

/-- `str.split()` with no separator: split on whitespace runs, dropping
empty pieces. -/
def splitWsGo : List Char → List Char → List (List Char)
  | [], acc => if acc = [] then [] else [acc.reverse]
  | c :: rest, acc =>
      if c.isWhitespace then
        if acc = [] then splitWsGo rest []
        else acc.reverse :: splitWsGo rest []
      else splitWsGo rest (c :: acc)

/-- `str.split()` on strings. -/
def splitWs (s : String) : List String :=
  (splitWsGo s.toList []).map String.mk

/-- `str.split(sep)` for a non-empty separator: split at each
non-overlapping occurrence, scanning left to right. -/
def splitSepGo (sep : List Char) : Nat → List Char → List Char → List (List Char)
  | _, [], acc => [acc.reverse]
  | 0, l, acc => [acc.reverse ++ l]
  | fuel + 1, c :: rest, acc =>
      if sep.isPrefixOf (c :: rest) ∧ sep ≠ [] then
        acc.reverse :: splitSepGo sep fuel (List.drop (sep.length - 1) rest) []
      else splitSepGo sep fuel rest (c :: acc)

/-- `str.split(sep)` on strings; the fuel `s.toList.length` bounds the
number of scanning steps (each step consumes at least one character), so
the `0`-fuel fallback of `splitSepGo` is never reached. -/
def pySplitOn (s sep : String) : List String :=
  (splitSepGo sep.toList s.toList.length s.toList []).map String.mk

/-- `crossref_arxiv.approximate_title_match`: case-folded fuzzy ratio
against `TITLE_MATCH_THRESHOLD = 75`. -/
def approximate_title_match (bib_title candidate_title : String) : Bool :=
  decide ((75 : ℚ) ≤ fuzzy_ratio (pyLower bib_title) (pyLower candidate_title))

/-- `cvf_openreview.approximate_ratio` / `final_filter.approximate_ratio`:
case-folded `difflib` ratio × 100. -/
def approximate_ratio (a b : String) : ℚ :=
  fuzzy_ratio (pyLower a) (pyLower b)

/-! ### Bounds of `ratio` -/

theorem matchSumF_le (a b : List Char) :
    ∀ (fuel alo ahi blo bhi : Nat),
      matchSumF a b fuel alo ahi blo bhi ≤ ahi - alo ∧
      matchSumF a b fuel alo ahi blo bhi ≤ bhi - blo := by
  intro fuel
  induction fuel with
  | zero =>
      intro alo ahi blo bhi
      exact ⟨Nat.zero_le _, Nat.zero_le _⟩
  | succ fuel ih =>
      intro alo ahi blo bhi
      simp only [matchSumF]
      rcases flm_range a b alo ahi blo bhi with ⟨h1, h2, h3⟩
      split
      · simp
      · next hz =>
          have h4 := h3 hz
          have hszpos : 1 ≤ (flm a b alo ahi blo bhi).sz := by omega
          have hB1 : (if alo < (flm a b alo ahi blo bhi).i ∧
              blo < (flm a b alo ahi blo bhi).j then
                matchSumF a b fuel alo (flm a b alo ahi blo bhi).i blo
                  (flm a b alo ahi blo bhi).j
              else 0) ≤ (flm a b alo ahi blo bhi).i - alo ∧
              (if alo < (flm a b alo ahi blo bhi).i ∧
              blo < (flm a b alo ahi blo bhi).j then
                matchSumF a b fuel alo (flm a b alo ahi blo bhi).i blo
                  (flm a b alo ahi blo bhi).j
              else 0) ≤ (flm a b alo ahi blo bhi).j - blo := by
            split
            · exact ih alo (flm a b alo ahi blo bhi).i blo
                (flm a b alo ahi blo bhi).j
            · omega
          have hB2 : (if (flm a b alo ahi blo bhi).i +
                (flm a b alo ahi blo bhi).sz < ahi ∧
                (flm a b alo ahi blo bhi).j + (flm a b alo ahi blo bhi).sz < bhi then
                matchSumF a b fuel
                  ((flm a b alo ahi blo bhi).i + (flm a b alo ahi blo bhi).sz) ahi
                  ((flm a b alo ahi blo bhi).j + (flm a b alo ahi blo bhi).sz) bhi
              else 0) ≤ ahi - ((flm a b alo ahi blo bhi).i +
                (flm a b alo ahi blo bhi).sz) ∧
              (if (flm a b alo ahi blo bhi).i +
                (flm a b alo ahi blo bhi).sz < ahi ∧
                (flm a b alo ahi blo bhi).j + (flm a b alo ahi blo bhi).sz < bhi then
                matchSumF a b fuel
                  ((flm a b alo ahi blo bhi).i + (flm a b alo ahi blo bhi).sz) ahi
                  ((flm a b alo ahi blo bhi).j + (flm a b alo ahi blo bhi).sz) bhi
              else 0) ≤ bhi - ((flm a b alo ahi blo bhi).j +
                (flm a b alo ahi blo bhi).sz) := by
            split
            · exact ih ((flm a b alo ahi blo bhi).i + (flm a b alo ahi blo bhi).sz)
                ahi ((flm a b alo ahi blo bhi).j + (flm a b alo ahi blo bhi).sz) bhi
            · omega
          omega

theorem matchSum_le (a b : List Char) (alo ahi blo bhi : Nat) :
    matchSum a b alo ahi blo bhi ≤ ahi - alo ∧
    matchSum a b alo ahi blo bhi ≤ bhi - blo := by
  unfold matchSum
  exact matchSumF_le a b _ alo ahi blo bhi

theorem ratio_nonneg (a b : List Char) : 0 ≤ ratio a b := by
  unfold ratio
  split
  · norm_num
  · positivity

theorem ratio_le_one (a b : List Char) : ratio a b ≤ 1 := by
  unfold ratio
  split
  · norm_num
  · next hT =>
      have hM := matchSum_le a b 0 a.length 0 b.length
      rw [div_le_one (by exact_mod_cast Nat.pos_of_ne_zero hT)]
      have : 2 * matchSum a b 0 a.length 0 b.length ≤ a.length + b.length := by
        omega
      exact_mod_cast this

/-! ### Reflexivity of `ratio`

On the diagonal call `flm a a s e s e` the DP row at index `i` maps key `i`
to `i - s + 1`, so the best block grows to the full range and
`find_longest_match` returns `(s, s, e - s)`. -/

theorem alGet_append_ne (row : List (Nat × Nat)) (j j' k : Nat) (h : j' ≠ j) :
    alGet (row ++ [(j', k)]) j = alGet row j := by
  unfold alGet
  rw [List.find?_append]
  cases hf : row.find? (fun p => p.1 == j) with
  | some p => rfl
  | none =>
      rw [List.find?_cons_of_neg _ (by simp [h]), List.find?_nil]
      rfl

theorem alGet_append_absent (row : List (Nat × Nat)) (j k : Nat)
    (h : row.find? (fun p => p.1 == j) = none) :
    alGet (row ++ [(j, k)]) j = k := by
  unfold alGet
  rw [List.find?_append, h]
  simp [List.find?_cons]

theorem find?_append_none (row : List (Nat × Nat)) (j j' k : Nat) (hne : j' ≠ j)
    (h : row.find? (fun p => p.1 == j) = none) :
    (row ++ [(j', k)]).find? (fun p => p.1 == j) = none := by
  rw [List.find?_append, h]
  rw [List.find?_cons_of_neg _ (by simp [hne]), List.find?_nil]
  rfl

theorem flmRow_sz_mono (prev : List (Nat × Nat)) (i : Nat) :
    ∀ (js : List Nat) (row : List (Nat × Nat)) (best : Best),
      best.sz ≤ (flmRow prev i js row best).2.sz := by
  intro js
  induction js with
  | nil => intro row best; exact le_refl _
  | cons j js ih =>
      intro row best
      rw [flmRow]
      refine le_trans ?_ (ih _ _)
      split
      · next hlt => simp; omega
      · exact le_refl _

theorem flmRow_sz_ge_kval (prev : List (Nat × Nat)) (i : Nat) :
    ∀ (js : List Nat) (row : List (Nat × Nat)) (best : Best) (j : Nat),
      j ∈ js → kval prev j ≤ (flmRow prev i js row best).2.sz := by
  intro js
  induction js with
  | nil => intro row best j hj; simp at hj
  | cons j' js ih =>
      intro row best j hj
      rcases List.mem_cons.mp hj with h | h
      · subst h
        rw [flmRow]
        refine le_trans ?_ (flmRow_sz_mono prev i js _ _)
        split
        · next hlt => simp
        · next hlt => omega
      · rw [flmRow]
        exact ih _ _ j h

theorem flmRow_alGet_preserved (prev : List (Nat × Nat)) (i : Nat) :
    ∀ (js : List Nat) (row : List (Nat × Nat)) (best : Best) (j : Nat),
      j ∉ js → alGet (flmRow prev i js row best).1 j = alGet row j := by
  intro js
  induction js with
  | nil => intro row best j _; rfl
  | cons j' js ih =>
      intro row best j hj
      rw [flmRow]
      rw [ih _ _ j (fun h => hj (List.mem_cons.mpr (Or.inr h)))]
      exact alGet_append_ne row j j' _ (fun h => hj (List.mem_cons.mpr (Or.inl h.symm)))

theorem flmRow_alGet_set (prev : List (Nat × Nat)) (i : Nat) :
    ∀ (js : List Nat) (row : List (Nat × Nat)) (best : Best) (j : Nat),
      j ∈ js → js.Nodup → row.find? (fun p => p.1 == j) = none →
      alGet (flmRow prev i js row best).1 j = kval prev j := by
  intro js
  induction js with
  | nil => intro row best j hj; simp at hj
  | cons j' js ih =>
      intro row best j hj hnd habs
      rcases List.mem_cons.mp hj with h | h
      · subst h
        rw [flmRow]
        have hnotin : j ∉ js := (List.nodup_cons.mp hnd).1
        rw [flmRow_alGet_preserved prev i js _ _ j hnotin]
        exact alGet_append_absent row j _ habs
      · rw [flmRow]
        have hne : j' ≠ j := by
          rintro rfl
          exact (List.nodup_cons.mp hnd).1 h
        exact ih _ _ j h (List.nodup_cons.mp hnd).2
          (find?_append_none row j j' _ hne habs)

theorem posns_nodup (b : List Char) (c : Char) (blo bhi : Nat) :
    (posns b c blo bhi).Nodup :=
  (List.nodup_range _).filter _

/-- The diagonal invariant for `flm a a s e s e`: after folding the first
`n` rows the current row maps key `s + n - 1` to `n`, and the best size is
at least `n`. -/
theorem flmCore_diag_inv (a : List Char) (s e : Nat) (he : e ≤ a.length) :
    ∀ n, s + n ≤ e →
      (1 ≤ n → alGet (((List.range' s n).foldl
        (fun (st : List (Nat × Nat) × Best) i =>
          flmRow st.1 i (posns a (a.getD i ' ') s e) [] st.2)
        ([], ⟨s, s, 0⟩)).1) (s + n - 1) = n) ∧
      n ≤ (((List.range' s n).foldl
        (fun (st : List (Nat × Nat) × Best) i =>
          flmRow st.1 i (posns a (a.getD i ' ') s e) [] st.2)
        ([], ⟨s, s, 0⟩)).2).sz := by
  intro n
  induction n with
  | zero => intro _; exact ⟨fun h => by omega, by simp⟩
  | succ n ih =>
      intro hn
      have hrec := ih (by omega)
      rw [List.range'_1_concat, List.foldl_append, List.foldl_cons, List.foldl_nil]
      set st := ((List.range' s n).foldl
        (fun (st : List (Nat × Nat) × Best) i =>
          flmRow st.1 i (posns a (a.getD i ' ') s e) [] st.2)
        ([], ⟨s, s, 0⟩)) with hst
      -- the value computed for column `s + n` in row `s + n` is `n + 1`
      have hkv : kval st.1 (s + n) = n + 1 := by
        unfold kval
        by_cases h0 : s + n = 0
        · have hs0 : s = 0 ∧ n = 0 := by omega
          rw [if_pos h0]
          omega
        · rw [if_neg h0]
          rcases Nat.eq_zero_or_pos n with hn0 | hnpos
          · subst hn0
            have : st.1 = [] := by
              rw [hst]
              rfl
            rw [this]
            rfl
          · rw [hrec.1 hnpos]
      have hmem : s + n ∈ posns a (a.getD (s + n) ' ') s e :=
        posns_mem_iff.mpr ⟨by omega, by omega, by omega, rfl⟩
      constructor
      · intro _
        have := flmRow_alGet_set st.1 (s + n) (posns a (a.getD (s + n) ' ') s e)
          [] st.2 (s + n) hmem (posns_nodup _ _ _ _) rfl
        rw [show s + (n + 1) - 1 = s + n by omega, this, hkv]
      · have := flmRow_sz_ge_kval st.1 (s + n) (posns a (a.getD (s + n) ' ') s e)
          [] st.2 (s + n) hmem
        rw [hkv] at this
        exact this

theorem flmCore_diag (a : List Char) (s e : Nat) (hse : s ≤ e)
    (he : e ≤ a.length) :
    flmCore a a s e s e = ⟨s, s, e - s⟩ := by
  have hlow := (flmCore_diag_inv a s e he (e - s) (by omega)).2
  have hB := @flmCore_bestB a a s e s e hse hse
  unfold flmCore at *
  rcases hx : (((List.range' s (e - s)).foldl
      (fun (st : List (Nat × Nat) × Best) i =>
        flmRow st.1 i (posns a (a.getD i ' ') s e) [] st.2)
      ([], ⟨s, s, 0⟩)).2) with ⟨xi, xj, xsz⟩
  rw [hx] at hlow hB
  obtain ⟨b1, b2, b3, b4⟩ := hB
  simp only [Best_i_mk, Best_j_mk, Best_sz_mk] at b1 b2 b3 b4 hlow
  have : xsz = e - s := by omega
  have hxi : xi = s := by omega
  have hxj : xj = s := by omega
  subst this hxi hxj
  rfl

theorem flm_diag (a : List Char) (s e : Nat) (hse : s ≤ e) (he : e ≤ a.length) :
    flm a a s e s e = ⟨s, s, e - s⟩ := by
  unfold flm
  rw [flmCore_diag a s e hse he]
  have hL : extendLeft a a s s s s (e - s) = ⟨s, s, e - s⟩ := by
    unfold extendLeft
    exact extendLeftF_stop a a s s s s s (e - s) (by omega)
  have hR : extendRight a a e e s s (e - s) = e - s := by
    unfold extendRight
    exact extendRightF_stop a a e e s s _ (e - s) (by omega)
  simp [flmPost, hL, hR]

theorem matchSum_diag (a : List Char) : matchSum a a 0 a.length 0 a.length = a.length := by
  unfold matchSum
  rcases Nat.eq_zero_or_pos a.length with h0 | hpos
  · rw [h0]
    rfl
  · have hfuel : a.length - 0 + (a.length - 0) = (2 * a.length - 1) + 1 := by omega
    rw [hfuel]
    simp only [matchSumF]
    rw [flm_diag a 0 a.length (by omega) (le_refl _)]
    simp only [Best_i_mk, Best_j_mk, Best_sz_mk]
    rw [if_neg (by omega : ¬(a.length - 0 = 0))]
    rw [if_neg (by omega : ¬((0:Nat) < 0 ∧ (0:Nat) < 0))]
    rw [if_neg (by omega :
      ¬(0 + (a.length - 0) < a.length ∧ 0 + (a.length - 0) < a.length))]
    omega

theorem ratio_self (a : List Char) : ratio a a = 1 := by
  unfold ratio
  split
  · rfl
  · next hT =>
      rw [matchSum_diag]
      have hpos : (0 : ℚ) < (a.length : ℚ) := by
        exact_mod_cast Nat.pos_of_ne_zero (by omega)
      rw [div_eq_one_iff_eq (by linarith : ((a.length : ℚ) + (a.length : ℚ)) ≠ 0)]
      ring

theorem similarity_self (a : String) : similarity a a = 1 :=
  ratio_self a.toList

theorem fuzzy_ratio_nonneg (a b : String) : 0 ≤ fuzzy_ratio a b := by
  unfold fuzzy_ratio similarity
  have := ratio_nonneg a.toList b.toList
  linarith

theorem fuzzy_ratio_le_100 (a b : String) : fuzzy_ratio a b ≤ 100 := by
  unfold fuzzy_ratio similarity
  have := ratio_le_one a.toList b.toList
  linarith

/-! ## Author parsing and fuzzy author overlap (`crossref_arxiv.py`) -/

/-- `crossref_arxiv.parse_last_name`: text before the first comma
(BibTeX style, `split(',', maxsplit=1)[0].strip()`), else the final
whitespace-delimited token, lowercased. -/
def parse_last_name (author_str : String) : String :=
  let t := pyStrip author_str
  if t = "" then ""
  else
    let a := pyLower t
    if a.toList.contains ',' then
      pyStrip (String.mk (a.toList.takeWhile (fun c => c ≠ ',')))
    else (splitWs a).getLastD ""

/-- The inner loop of `authors_overlap_fuzzy`: over the enumerated candidate
last names, skipping indices already in `used_found_idx`, keep the first
strictly-best fuzzy score (`if score > best_score`).  State is
`(best_score, best_idx)`, with `none` standing for Python's initial `-1`. -/
def innerBest (bln : String) (used : List Nat) :
    List (Nat × String) → ℚ × Option Nat → ℚ × Option Nat
  | [], st => st
  | (i, fln) :: rest, st =>
      if i ∈ used then innerBest bln used rest st
      else
        innerBest bln used rest
          (if st.1 < fuzzy_ratio bln fln then (fuzzy_ratio bln fln, some i) else st)

/-- The outer loop of `authors_overlap_fuzzy`: for each bibliography last
name take the best unused candidate; accept when the best score reaches
`AUTHOR_MATCH_THRESHOLD = 75`.  When no candidate was ever scored
(`best_idx = -1` in Python) the added index blocks nothing, modelled by
leaving `used` unchanged. -/
def greedyLoop (found : List (Nat × String)) :
    List String → Nat × List Nat → Nat × List Nat
  | [], st => st
  | bln :: rest, st =>
      let r := innerBest bln st.2 found (0, none)
      if (75 : ℚ) ≤ r.1 then
        match r.2 with
        | some i => greedyLoop found rest (st.1 + 1, i :: st.2)
        | none => greedyLoop found rest (st.1 + 1, st.2)
      else greedyLoop found rest st

/-- `[parse_last_name(x) for x in authors if x.strip()]`. -/
def lastNames (authors : List String) : List String :=
  (authors.filter (fun x => pyStrip x ≠ "")).map parse_last_name

/-- `matched_count` of `authors_overlap_fuzzy` on already-extracted last
names. -/
def greedyMatchedCount (bibLast foundLast : List String) : Nat :=
  (greedyLoop foundLast.enum bibLast (0, [])).1

/-- `overlap_fraction = matched_count / len(bib_last)`. -/
def overlapFraction (bib_authors found_authors : List String) : ℚ :=
  (greedyMatchedCount (lastNames bib_authors) (lastNames found_authors) : ℚ) /
    ((lastNames bib_authors).length : ℚ)

/-- `crossref_arxiv.authors_overlap_fuzzy`: `True` when the bibliography
lists no authors, else `overlap_fraction >= MIN_AUTHOR_OVERLAP_FRAC`
(`0.6`). -/
def authors_overlap_fuzzy (bib_authors found_authors : List String) : Bool :=
  if (lastNames bib_authors).isEmpty then true
  else decide ((3 : ℚ)/5 ≤ overlapFraction bib_authors found_authors)

/-- `[x.strip() for x in s.split(" and ") if x.strip()]`, as used by
`check_bibliography` on the BibTeX author field. -/
def splitAuthors (s : String) : List String :=
  ((pySplitOn s " and ").map pyStrip).filter (fun x => x ≠ "")

/-! ### Analysis of the greedy assignment

`bestOf` is a structural restatement of the inner loop: it returns the
score and index of the first list element attaining the maximal positive
score.  All reasoning happens on `bestOf` over the unused candidates. -/

/-- First-attainer-of-the-maximum form of the inner loop. -/
def bestOf (g : Nat × String → ℚ) : List (Nat × String) → ℚ × Option Nat
  | [] => (0, none)
  | p :: rest =>
      if (bestOf g rest).1 ≤ g p ∧ 0 < g p then (g p, some p.1) else bestOf g rest

theorem bestOf_fst_nonneg (g : Nat × String → ℚ) (l : List (Nat × String)) :
    0 ≤ (bestOf g l).1 := by
  induction l with
  | nil => exact le_refl 0
  | cons p rest ih =>
      rw [bestOf]
      split
      · next h => simpa using le_of_lt h.2
      · exact ih

theorem bestOf_le (g : Nat × String → ℚ) (l : List (Nat × String)) :
    ∀ p ∈ l, g p ≤ (bestOf g l).1 := by
  induction l with
  | nil => intro p hp; simp at hp
  | cons q rest ih =>
      intro p hp
      rw [bestOf]
      rcases List.mem_cons.mp hp with h | h
      · subst h
        split
        · next h => simp
        · next h =>
            rcases not_and_or.mp h with h' | h'
            · exact le_of_lt (lt_of_not_le h')
            · exact le_trans (le_of_not_lt h') (bestOf_fst_nonneg g rest)
      · split
        · next hc => exact le_trans (ih p h) (by simpa using hc.1)
        · exact ih p h

theorem bestOf_some (g : Nat × String → ℚ) (l : List (Nat × String)) (i : Nat) :
    (bestOf g l).2 = some i →
    ∃ p ∈ l, p.1 = i ∧ g p = (bestOf g l).1 ∧ 0 < g p := by
  induction l with
  | nil => intro h; simp [bestOf] at h
  | cons q rest ih =>
      intro h
      rw [bestOf] at h ⊢
      split at h
      · next hc =>
          simp at h
          refine ⟨q, by simp, h, ?_, hc.2⟩
          rw [if_pos hc]
      · next hc =>
          rcases ih h with ⟨p, hp, h1, h2, h3⟩
          exact ⟨p, by simp [hp], h1, by rw [if_neg hc]; exact h2, h3⟩

theorem bestOf_pos_some (g : Nat × String → ℚ) (l : List (Nat × String))
    (h : 0 < (bestOf g l).1) : ∃ i, (bestOf g l).2 = some i := by
  induction l with
  | nil => simp [bestOf] at h
  | cons q rest ih =>
      rw [bestOf] at h ⊢
      split at h
      · next hc => rw [if_pos hc]; exact ⟨q.1, rfl⟩
      · next hc => rw [if_neg hc]; exact ih h

theorem bestOf_eq_of_fst_zero (g : Nat × String → ℚ) (l : List (Nat × String))
    (h : (bestOf g l).1 = 0) : bestOf g l = (0, none) := by
  cases hs : (bestOf g l).2 with
  | none =>
      have : bestOf g l = ((bestOf g l).1, (bestOf g l).2) := rfl
      rw [this, h, hs]
  | some i =>
      rcases bestOf_some g l i hs with ⟨p, _, _, h2, h3⟩
      rw [h] at h2
      rw [h2] at h3
      exact absurd h3 (lt_irrefl 0)

theorem bestOf_sublist_le (g : Nat × String → ℚ) {l L : List (Nat × String)}
    (h : l.Sublist L) : (bestOf g l).1 ≤ (bestOf g L).1 := by
  induction h with
  | slnil => exact le_refl _
  | @cons l₁ l₂ q h ih =>
      simp only [bestOf]
      split
      · next hc => exact le_trans ih (by simpa using hc.1)
      · exact ih
  | @cons₂ l₁ l₂ q h ih =>
      simp only [bestOf]
      split
      · next hc =>
          split
          · next hc' => simp
          · next hc' =>
              rcases not_and_or.mp hc' with h' | h'
              · exact le_of_lt (lt_of_not_le h')
              · exact absurd hc.2 h'
      · next hc =>
          split
          · next hc' => exact le_trans ih (by simpa using hc'.1)
          · exact ih

theorem bestOf_pick (g : Nat × String → ℚ) {l L : List (Nat × String)}
    (h : l.Sublist L) : ∀ (_ : (L.map Prod.fst).Nodup) {i : Nat}
      (_ : (bestOf g L).2 = some i) (_ : ∃ p ∈ l, p.1 = i),
      (bestOf g l).2 = some i := by
  induction h with
  | slnil =>
      intro _ i hB _
      simp [bestOf] at hB
  | @cons l₁ l₂ q h ih =>
      intro hnd i hB hl
      rw [List.map_cons] at hnd
      have hnd' : (l₂.map Prod.fst).Nodup := (List.nodup_cons.mp hnd).2
      have hqnot : q.1 ∉ l₂.map Prod.fst := (List.nodup_cons.mp hnd).1
      simp only [bestOf] at hB
      split at hB
      · next hc =>
          simp only [Option.some.injEq] at hB
          rcases hl with ⟨p, hp, hpi⟩
          have hpL : p ∈ l₂ := h.subset hp
          exact absurd (by rw [hB, ← hpi]; exact List.mem_map_of_mem Prod.fst hpL)
            hqnot
      · exact ih hnd' hB hl
  | @cons₂ l₁ l₂ q h ih =>
      intro hnd i hB hl
      rw [List.map_cons] at hnd
      have hnd' : (l₂.map Prod.fst).Nodup := (List.nodup_cons.mp hnd).2
      have hqnot : q.1 ∉ l₂.map Prod.fst := (List.nodup_cons.mp hnd).1
      simp only [bestOf] at hB ⊢
      split at hB
      · next hc =>
          simp only [Option.some.injEq] at hB
          rw [if_pos ⟨le_trans (bestOf_sublist_le g h) hc.1, hc.2⟩]
          simp [hB]
      · next hc =>
          rcases bestOf_some g l₂ i hB with ⟨p, hpL, hpi, hpv, hppos⟩
          have hl' : ∃ p ∈ l₁, p.1 = i := by
            rcases hl with ⟨p', hp', hp'i⟩
            rcases List.mem_cons.mp hp' with h' | h'
            · exfalso
              subst h'
              exact hqnot (by rw [hp'i, ← hpi]; exact List.mem_map_of_mem Prod.fst hpL)
            · exact ⟨p', h', hp'i⟩
          have hrec := ih hnd' hB hl'
          have hneg : ¬((bestOf g l₁).1 ≤ g q ∧ 0 < g q) := by
            rintro ⟨hle, hpos⟩
            rcases bestOf_some g l₁ i hrec with ⟨p₂, hp₂, hp₂i, hp₂v, _⟩
            have hp₂L : p₂ ∈ l₂ := h.subset hp₂
            have hpp : p₂ = p :=
              List.inj_on_of_nodup_map hnd' hp₂L hpL (by rw [hp₂i, hpi])
            have heq : (bestOf g l₁).1 = (bestOf g l₂).1 := by
              rw [← hp₂v, hpp, hpv]
            exact hc ⟨heq ▸ hle, hpos⟩
          rw [if_neg hneg]
          exact hrec

/-- Bool form of "index not yet used". -/
def notUsed (used : List Nat) : Nat × String → Bool :=
  fun p => decide (¬ p.1 ∈ used)

theorem innerBest_eq (bln : String) (used : List Nat) :
    ∀ (l : List (Nat × String)) (st : ℚ × Option Nat), 0 ≤ st.1 →
      innerBest bln used l st =
        if st.1 < (bestOf (fun p => fuzzy_ratio bln p.2) (l.filter (notUsed used))).1
        then bestOf (fun p => fuzzy_ratio bln p.2) (l.filter (notUsed used))
        else st := by
  intro l
  induction l with
  | nil =>
      intro st hst
      rw [innerBest]
      rw [List.filter_nil]
      rw [if_neg (by rw [bestOf]; exact not_lt.mpr hst)]
  | cons p rest ih =>
      intro st hst
      obtain ⟨i, fln⟩ := p
      by_cases hu : i ∈ used
      · rw [List.filter_cons_of_neg (by simp [notUsed, hu])]
        rw [innerBest, if_pos hu]
        exact ih st hst
      · rw [List.filter_cons_of_pos (by simp [notUsed, hu])]
        rw [innerBest, if_neg hu]
        by_cases hlt : st.1 < fuzzy_ratio bln fln
        · rw [if_pos hlt]
          rw [ih (fuzzy_ratio bln fln, some i) (le_of_lt (lt_of_le_of_lt hst hlt))]
          rw [bestOf]
          have hpos : 0 < fuzzy_ratio bln fln := lt_of_le_of_lt hst hlt
          by_cases hBg : (bestOf (fun p => fuzzy_ratio bln p.2)
              (rest.filter (notUsed used))).1 ≤ fuzzy_ratio bln fln
          · simp [hBg, hpos, hlt, not_lt.mpr hBg]
          · have hgB := lt_of_not_le hBg
            simp [hgB, not_le.mpr hgB, lt_trans hlt hgB]
        · rw [if_neg hlt]
          rw [ih st hst]
          rw [bestOf]
          have hge := not_lt.mp hlt
          by_cases hBc : (bestOf (fun p => fuzzy_ratio bln p.2)
              (rest.filter (notUsed used))).1 ≤ fuzzy_ratio bln fln ∧
              0 < fuzzy_ratio bln fln
          · simp [hBc, not_lt.mpr hge, not_lt.mpr (le_trans hBc.1 hge)]
          · rw [if_neg hBc]

theorem innerBest_zero (bln : String) (used : List Nat)
    (l : List (Nat × String)) :
    innerBest bln used l (0, none) =
      bestOf (fun p => fuzzy_ratio bln p.2) (l.filter (notUsed used)) := by
  rw [innerBest_eq bln used l (0, none) (le_refl 0)]
  split
  · rfl
  · next h =>
      have h0 : (bestOf (fun p => fuzzy_ratio bln p.2)
          (l.filter (notUsed used))).1 = 0 :=
        le_antisymm (by simpa using not_lt.mp h) (bestOf_fst_nonneg _ _)
      rw [bestOf_eq_of_fst_zero _ _ h0]

theorem enum_append_singleton (l : List String) (c : String) :
    (l ++ [c]).enum = l.enum ++ [(l.length, c)] := by
  simp [List.enum_append]

theorem mem_enum_fst_lt {l : List String} {p : Nat × String}
    (h : p ∈ l.enum) : p.1 < l.length :=
  (List.getElem?_eq_some.mp (List.mem_enum_iff_getElem?.mp h)).1

theorem filter_sublist_of_imp {α : Type} (p q : α → Bool) :
    ∀ (l : List α), (∀ x ∈ l, p x = true → q x = true) →
      (l.filter p).Sublist (l.filter q) := by
  intro l
  induction l with
  | nil => intro _; simp
  | cons x l ih =>
      intro h
      have htail := ih (fun y hy => h y (by simp [hy]))
      by_cases hp : p x = true
      · rw [List.filter_cons_of_pos hp, List.filter_cons_of_pos (h x (by simp) hp)]
        exact htail.cons₂ x
      · rw [List.filter_cons_of_neg hp]
        by_cases hq : q x = true
        · rw [List.filter_cons_of_pos hq]
          exact htail.cons x
        · rw [List.filter_cons_of_neg hq]
          exact htail

/-- Core of the monotonicity argument: running the greedy assignment with
candidate list `found ++ [c]` and a used set that exceeds the reference
used set only by the new index `found.length` yields at least as many
matches. -/
theorem greedyLoop_mono (found : List String) (c : String) :
    ∀ (bibL : List String) (stA stB : Nat × List Nat),
      (∀ u ∈ stB.2, u ∈ stA.2 ∨ u = found.length) → stA.1 ≤ stB.1 →
      (greedyLoop found.enum bibL stA).1 ≤
        (greedyLoop (found ++ [c]).enum bibL stB).1 := by
  intro bibL
  induction bibL with
  | nil =>
      intro stA stB _ hle
      simpa only [greedyLoop] using hle
  | cons bln rest ih =>
      intro stA stB hsub hle
      simp only [greedyLoop, innerBest_zero]
      have hLALB : (found.enum.filter (notUsed stA.2)).Sublist
          (((found ++ [c]).enum).filter (notUsed stB.2)) := by
        rw [enum_append_singleton, List.filter_append]
        refine List.Sublist.trans ?_ (List.sublist_append_left _ _)
        apply filter_sublist_of_imp
        intro p hp h1
        simp only [notUsed, decide_eq_true_eq] at h1 ⊢
        intro hmem
        rcases hsub p.1 hmem with h' | h'
        · exact h1 h'
        · exact absurd h' (Nat.ne_of_lt (mem_enum_fst_lt hp))
      have hndLB : ((((found ++ [c]).enum).filter (notUsed stB.2)).map
          Prod.fst).Nodup := by
        have h1 : ((((found ++ [c]).enum).filter (notUsed stB.2)).map
            Prod.fst).Sublist (((found ++ [c]).enum).map Prod.fst) :=
          (List.filter_sublist _).map _
        have h2 : (((found ++ [c]).enum).map Prod.fst).Nodup := by
          rw [List.enum_map_fst]
          exact List.nodup_range _
        exact h2.sublist h1
      by_cases hA75 : (75 : ℚ) ≤
          (bestOf (fun p => fuzzy_ratio bln p.2)
            (found.enum.filter (notUsed stA.2))).1
      · have hB75 : (75 : ℚ) ≤
            (bestOf (fun p => fuzzy_ratio bln p.2)
              (((found ++ [c]).enum).filter (notUsed stB.2))).1 :=
          le_trans hA75 (bestOf_sublist_le _ hLALB)
        rw [if_pos hA75, if_pos hB75]
        obtain ⟨iA, hiA⟩ := bestOf_pos_some _ _
          (lt_of_lt_of_le (by norm_num) hA75)
        obtain ⟨iB, hiB⟩ := bestOf_pos_some _ _
          (lt_of_lt_of_le (by norm_num) hB75)
        rw [hiA, hiB]
        apply ih
        · intro u hu
          rcases List.mem_cons.mp hu with rfl | hu'
          · by_cases hin : u ∈ stA.2
            · exact Or.inl (List.mem_cons.mpr (Or.inr hin))
            · by_cases hn : u = found.length
              · exact Or.inr hn
              · rcases bestOf_some _ _ u hiB with ⟨p, hpLB, hpi, _, _⟩
                have hpEF : p ∈ ((found ++ [c]).enum) :=
                  List.mem_of_mem_filter hpLB
                have hpE : p ∈ found.enum := by
                  rw [enum_append_singleton] at hpEF
                  rcases List.mem_append.mp hpEF with h' | h'
                  · exact h'
                  · exfalso
                    simp at h'
                    exact hn (by rw [← hpi, h'])
                have hpLA : p ∈ found.enum.filter (notUsed stA.2) :=
                  List.mem_filter.mpr ⟨hpE, by simp [notUsed, hpi, hin]⟩
                have hpick := bestOf_pick _ hLALB hndLB hiB ⟨p, hpLA, hpi⟩
                rw [hiA] at hpick
                simp only [Option.some.injEq] at hpick
                exact Or.inl (List.mem_cons.mpr (Or.inl hpick.symm))
          · rcases hsub u hu' with h' | h'
            · exact Or.inl (List.mem_cons.mpr (Or.inr h'))
            · exact Or.inr h'
        · omega
      · by_cases hB75 : (75 : ℚ) ≤
            (bestOf (fun p => fuzzy_ratio bln p.2)
              (((found ++ [c]).enum).filter (notUsed stB.2))).1
        · rw [if_neg hA75, if_pos hB75]
          obtain ⟨iB, hiB⟩ := bestOf_pos_some _ _
            (lt_of_lt_of_le (by norm_num) hB75)
          rw [hiB]
          apply ih
          · intro u hu
            rcases List.mem_cons.mp hu with rfl | hu'
            · by_cases hin : u ∈ stA.2
              · exact Or.inl hin
              · by_cases hn : u = found.length
                · exact Or.inr hn
                · exfalso
                  rcases bestOf_some _ _ u hiB with ⟨p, hpLB, hpi, hpv, _⟩
                  have hpEF : p ∈ ((found ++ [c]).enum) :=
                    List.mem_of_mem_filter hpLB
                  have hpE : p ∈ found.enum := by
                    rw [enum_append_singleton] at hpEF
                    rcases List.mem_append.mp hpEF with h' | h'
                    · exact h'
                    · exfalso
                      simp at h'
                      exact hn (by rw [← hpi, h'])
                  have hpLA : p ∈ found.enum.filter (notUsed stA.2) :=
                    List.mem_filter.mpr ⟨hpE, by simp [notUsed, hpi, hin]⟩
                  have h2 : fuzzy_ratio bln p.2 ≤
                      (bestOf (fun p => fuzzy_ratio bln p.2)
                        (List.filter (notUsed stA.2) found.enum)).1 :=
                    bestOf_le (fun p => fuzzy_ratio bln p.2) _ p hpLA
                  rw [hpv] at h2
                  exact hA75 (le_trans hB75 h2)
            · exact hsub u hu'
          · omega
        · rw [if_neg hA75, if_neg hB75]
          exact ih stA stB hsub hle

theorem greedyMatchedCount_append_one (bibLast foundLast : List String)
    (c : String) :
    greedyMatchedCount bibLast foundLast ≤
      greedyMatchedCount bibLast (foundLast ++ [c]) := by
  unfold greedyMatchedCount
  exact greedyLoop_mono foundLast c bibLast (0, []) (0, [])
    (by intro u hu; simp at hu) (le_refl 0)

theorem greedyMatchedCount_append (bibLast foundLast extra : List String) :
    greedyMatchedCount bibLast foundLast ≤
      greedyMatchedCount bibLast (foundLast ++ extra) := by
  induction extra generalizing foundLast with
  | nil => simp
  | cons x rest ih =>
      calc greedyMatchedCount bibLast foundLast
          ≤ greedyMatchedCount bibLast (foundLast ++ [x]) :=
            greedyMatchedCount_append_one bibLast foundLast x
        _ ≤ greedyMatchedCount bibLast ((foundLast ++ [x]) ++ rest) :=
            ih (foundLast ++ [x])
        _ = greedyMatchedCount bibLast (foundLast ++ (x :: rest)) := by
            rw [List.append_assoc]
            rfl

theorem lastNames_append (xs ys : List String) :
    lastNames (xs ++ ys) = lastNames xs ++ lastNames ys := by
  unfold lastNames
  rw [List.filter_append, List.map_append]

/-- Bound from "a candidate last name is used at most once": the matched
count can never exceed the number of candidate last names. -/
theorem greedyLoop_count_bound (foundLast : List String) :
    ∀ (bibL : List String) (st : Nat × List Nat),
      st.2.Nodup → (∀ u ∈ st.2, u < foundLast.length) → st.1 ≤ st.2.length →
      (greedyLoop foundLast.enum bibL st).1 ≤ foundLast.length := by
  intro bibL
  induction bibL with
  | nil =>
      intro st hnd hbd hle
      simp only [greedyLoop]
      calc st.1 ≤ st.2.length := hle
        _ = st.2.toFinset.card := (List.toFinset_card_of_nodup hnd).symm
        _ ≤ (Finset.range foundLast.length).card := by
            apply Finset.card_le_card
            intro x hx
            rw [Finset.mem_range]
            exact hbd x (List.mem_toFinset.mp hx)
        _ = foundLast.length := Finset.card_range _
  | cons bln rest ih =>
      intro st hnd hbd hle
      simp only [greedyLoop, innerBest_zero]
      by_cases h75 : (75 : ℚ) ≤
          (bestOf (fun p => fuzzy_ratio bln p.2)
            (foundLast.enum.filter (notUsed st.2))).1
      · rw [if_pos h75]
        obtain ⟨i, hi⟩ := bestOf_pos_some _ _ (lt_of_lt_of_le (by norm_num) h75)
        rw [hi]
        rcases bestOf_some _ _ i hi with ⟨p, hpL, hpi, _, _⟩
        have hpE : p ∈ foundLast.enum := List.mem_of_mem_filter hpL
        have hplt : p.1 < foundLast.length := mem_enum_fst_lt hpE
        have hpnot : ¬ p.1 ∈ st.2 := by
          have := (List.mem_filter.mp hpL).2
          simpa [notUsed] using this
        apply ih (st.1 + 1, i :: st.2)
        · exact List.nodup_cons.mpr ⟨by rw [← hpi]; exact hpnot, hnd⟩
        · intro u hu
          rcases List.mem_cons.mp hu with rfl | hu'
          · rw [← hpi]; exact hplt
          · exact hbd u hu'
        · simpa using Nat.succ_le_succ hle
      · rw [if_neg h75]
        exact ih st hnd hbd hle

theorem greedyMatchedCount_le (bibLast foundLast : List String) :
    greedyMatchedCount bibLast foundLast ≤ foundLast.length :=
  greedyLoop_count_bound foundLast bibLast (0, []) (by simp)
    (by intro u hu; simp at hu) (by simp)

/-- Monotonicity of the overlap fraction (fixed bibliography authors,
candidate author list extended on the right). -/
theorem overlapFraction_mono (bib_authors found_authors extra : List String) :
    overlapFraction bib_authors found_authors ≤
      overlapFraction bib_authors (found_authors ++ extra) := by
  unfold overlapFraction
  rw [lastNames_append]
  rcases Nat.eq_zero_or_pos (lastNames bib_authors).length with h0 | hpos
  · rw [h0]
    norm_num
  · rw [div_le_div_iff_of_pos_right (by exact_mod_cast hpos)]
    exact_mod_cast greedyMatchedCount_append _ _ _

/-! ## Source adapters and the cascade (`crossref_arxiv.py`,
`cvf_openreview.py`, `final_filter.py`)

A network interaction is abstracted as a `Fetch`: either the request raised
(`transportError`, any exception inside the adapter's `try`), or it returned
an HTTP status together with an optional parsed payload (`none` models a
body whose parse raised, e.g. `resp.json()` on garbage). -/

/-- A candidate record returned by a search service. -/
structure Candidate where
  title : String
  authors : List String
deriving Repr, DecidableEq

/-- Outcome of one HTTP request, as seen by an adapter. -/
inductive Fetch (α : Type) where
  | transportError : Fetch α
  | response (status : Nat) (payload : Option α) : Fetch α

/-- `crossref_arxiv.find_on_crossref`: `False` on exception, non-200 status
or unparseable body; else scan candidates in order for a fuzzy title match
with author overlap (`if not items` is subsumed by the empty scan). -/
def find_on_crossref (bib_title : String) (bib_authors : List String)
    (f : Fetch (List Candidate)) : Bool :=
  match f with
  | .transportError => false
  | .response status payload =>
      if status ≠ 200 then false
      else
        match payload with
        | none => false
        | some items =>
            items.any (fun it =>
              approximate_title_match bib_title it.title &&
              authors_overlap_fuzzy bib_authors it.authors)

/-- `crossref_arxiv.find_on_arxiv`: identical accept logic on the Atom
payload. -/
def find_on_arxiv (bib_title : String) (bib_authors : List String)
    (f : Fetch (List Candidate)) : Bool :=
  match f with
  | .transportError => false
  | .response status payload =>
      if status ≠ 200 then false
      else
        match payload with
        | none => false
        | some entries =>
            entries.any (fun it =>
              approximate_title_match bib_title it.title &&
              authors_overlap_fuzzy bib_authors it.authors)

/-- `cvf_openreview.search_cvf` / `final_filter.search_cvf`: title-only
matching against `TITLE_MATCH_THRESHOLD = 75`; all failures give `False`. -/
def search_cvf (title : String) (f : Fetch (List String)) : Bool :=
  match f with
  | .transportError => false
  | .response status payload =>
      if status ≠ 200 then false
      else
        match payload with
        | none => false
        | some results =>
            results.any (fun found_title =>
              decide ((75 : ℚ) ≤ approximate_ratio title found_title))

/-- The per-entry source pair of `check_bibliography`:
`found_xref = find_on_crossref(...)`, and ArXiv is consulted only when
Crossref found nothing. -/
def checkEntryPair (bib_title : String) (bib_authors : List String)
    (xf af : Fetch (List Candidate)) : Bool × Bool :=
  let found_xref := find_on_crossref bib_title bib_authors xf
  (found_xref,
    if found_xref then false else find_on_arxiv bib_title bib_authors af)

/-- Per-entry logic of `check_bibliography`: `some reason` when the entry is
flagged (missing title, or both sources exhausted), `none` when verified. -/
def processEntry (entry_id title authors_str : String)
    (xf af : Fetch (List Candidate)) : Option String :=
  let bib_title := pyStrip title
  let bib_authors := splitAuthors authors_str
  if bib_title = "" then some ("[" ++ entry_id ++ "] Missing title in .bib")
  else
    let r := checkEntryPair bib_title bib_authors xf af
    if r.1 || r.2 then none
    else some ("[" ++ entry_id ++ "] No match in Crossref or ArXiv for '" ++
      bib_title ++ "'")

/-- An abstract ordered adapter cascade (the chain of
`if search_X(...): continue` in `final_filter.main` and
`cvf_openreview.main`), instrumented with the list of adapter indices that
were actually invoked. -/
def cascadeTrace {α : Type} : List (α → Bool) → α → List Nat × Bool
  | [], _ => ([], false)
  | a :: rest, e =>
      if a e then ([0], true)
      else
        let r := cascadeTrace rest e
        (0 :: r.1.map (fun k => k + 1), r.2)

/-! ## Merge engine (`validate.py`) -/

/-- A BibTeX record: association list of field name/value, as produced by
`bibtexparser` (keys unique). -/
abbrev BibEntry : Type := List (String × String)

/-- `entry.get(field, "")`. -/
def getField (e : BibEntry) (f : String) : String :=
  match e.find? (fun p => p.1 == f) with
  | some p => p.2
  | none => ""

/-- `field in entry`. -/
def hasField (e : BibEntry) (f : String) : Bool :=
  (e.find? (fun p => p.1 == f)).isSome

/-- `entry[field] = v`: replace in place, or append a new field. -/
def setField (e : BibEntry) (f v : String) : BibEntry :=
  if hasField e f then
    e.map (fun p => if p.1 == f then (p.1, v) else p)
  else e ++ [(f, v)]

/-- One iteration of `merge_entries_preserving_original`'s
`for field, off_value in official.items()` loop; the state carries the
merged entry and the `[MISMATCH]` log lines reified as an event list
`(field, originalValue, officialValue)`. -/
def mergeStep (st : BibEntry × List (String × String × String))
    (fv : String × String) : BibEntry × List (String × String × String) :=
  if fv.1 == "ID" || fv.1 == "ENTRYTYPE" then st
  else
    let orig_value := getField st.1 fv.1
    if orig_value = "" ∧ fv.2 ≠ "" then (setField st.1 fv.1 fv.2, st.2)
    else if orig_value ≠ "" ∧ fv.2 ≠ "" ∧ pyStrip orig_value ≠ pyStrip fv.2 then
      (st.1, st.2 ++ [(fv.1, orig_value, fv.2)])
    else st

/-- `validate.merge_entries_preserving_original`. -/
def merge_entries_preserving_original (original official : BibEntry) :
    BibEntry × List (String × String × String) :=
  official.foldl mergeStep (original, [])

/-- Venue-classification token set of `merge_partial_pub_data`. -/
def venueTokens : List String := ["conf", "conference", "proc", "workshop"]

/-- `any(token in pub_val.lower() for token in [...])`. -/
def venueIsConference (pub_val : String) : Bool :=
  venueTokens.any (fun tok => decide (tok.toList.IsInfix (pyLower pub_val).toList))

/-- One field of `validate.merge_partial_pub_data`'s loop over
`possible_fields`; the `author` branch coincides with the generic
fill/mismatch branch once list values are modelled as joined strings. -/
def mergePubStep (pub : BibEntry)
    (st : BibEntry × List (String × String × String)) (field : String) :
    BibEntry × List (String × String × String) :=
  let pub_val := getField pub field
  if pub_val = "" then st
  else if field == "venue" then
    let original_venue :=
      if getField st.1 "booktitle" ≠ "" then getField st.1 "booktitle"
      else if getField st.1 "journal" ≠ "" then getField st.1 "journal"
      else ""
    if original_venue = "" then
      if venueIsConference pub_val then (setField st.1 "booktitle" pub_val, st.2)
      else (setField st.1 "journal" pub_val, st.2)
    else if pyStrip original_venue ≠ pyStrip pub_val then
      (st.1, st.2 ++ [("venue", original_venue, pub_val)])
    else st
  else
    let orig := getField st.1 field
    if orig = "" then (setField st.1 field pub_val, st.2)
    else if pyStrip orig ≠ pyStrip pub_val then
      (st.1, st.2 ++ [(field, orig, pub_val)])
    else st

/-- `validate.merge_partial_pub_data` (the fallback merge when no official
BibTeX is available). -/
def merge_pub_fallback (original pub : BibEntry) :
    BibEntry × List (String × String × String) :=
  ["title", "author", "year", "venue", "abstract"].foldl (mergePubStep pub)
    (original, [])

/-- `validate.parse_official_bibtex` after a successful parse: force the
original `ID` and `ENTRYTYPE` onto the parsed fields. -/
def parse_official_bibtex (fields : BibEntry)
    (original_id original_type : String) : BibEntry :=
  setField (setField fields "ID" original_id) "ENTRYTYPE" original_type

/-! ## The checkpoint/resume main loop of `validate.py` -/

/-- What `scholarly`'s raw BibTeX field held for a found publication. -/
inductive OfficialBibtex where
  | absent : OfficialBibtex
  | unparseable : OfficialBibtex
  | parsed (fields : BibEntry) : OfficialBibtex

/-- Outcome of `scholarly.search_single_pub` for one entry:
`blocked` is `MaxTriesExceededException`, `error` any other exception. -/
inductive SearchOutcome where
  | found (official : OfficialBibtex) (fallbackBib : BibEntry) : SearchOutcome
  | noMatch : SearchOutcome
  | blocked : SearchOutcome
  | error : SearchOutcome

/-- State of `validate.main`'s processing loop.  `writes` records every
payload handed to `write_bib_to_disk`, `lookups` counts scholarly searches,
`exit = some c` means `sys.exit(c)` was reached. -/
structure VState where
  corrected : List BibEntry
  processed : List String
  writes : List (List BibEntry)
  lookups : Nat
  exit : Option Nat

/-- One iteration of the `for idx, entry in enumerate(original_db.entries)`
loop of `validate.main`. -/
def validateStep (s : VState) (x : Nat × (BibEntry × SearchOutcome)) : VState :=
  if s.exit.isSome then s
  else
    let entry := x.2.1
    let entry_id :=
      if hasField entry "ID" then getField entry "ID"
      else "UNKNOWN_" ++ toString x.1
    let entry_type :=
      if hasField entry "ENTRYTYPE" then getField entry "ENTRYTYPE" else "misc"
    if entry_id ∈ s.processed then s
    else
      let title := pyStrip (getField entry "title")
      if title = "" then
        let corrected := s.corrected ++ [entry]
        { s with
          corrected := corrected,
          processed := entry_id :: s.processed,
          writes := s.writes ++ [corrected] }
      else
        match x.2.2 with
        | .blocked =>
            { s with
              lookups := s.lookups + 1,
              writes := s.writes ++ [s.corrected],
              exit := some 1 }
        | .error =>
            { s with
              lookups := s.lookups + 1,
              writes := s.writes ++ [s.corrected],
              exit := some 1 }
        | .noMatch =>
            let corrected := s.corrected ++ [entry]
            { s with
              lookups := s.lookups + 1,
              corrected := corrected,
              processed := entry_id :: s.processed,
              writes := s.writes ++ [corrected] }
        | .found official fallbackBib =>
            let newEntry :=
              match official with
              | .parsed fields =>
                  (merge_entries_preserving_original entry
                    (parse_official_bibtex fields entry_id entry_type)).1
              | .unparseable => entry
              | .absent =>
                  if fallbackBib ≠ [] then (merge_pub_fallback entry fallbackBib).1
                  else entry
            let corrected := s.corrected ++ [newEntry]
            { s with
              lookups := s.lookups + 1,
              corrected := corrected,
              processed := entry_id :: s.processed,
              writes := s.writes ++ [corrected] }

/-- Startup state: prior output loaded, `processed_ids` collected from it. -/
def initVState (existing : List BibEntry) : VState :=
  { corrected := existing,
    processed := existing.filterMap
      (fun e => if hasField e "ID" then some (getField e "ID") else none),
    writes := [], lookups := 0, exit := none }

/-- `validate.main`'s processing loop, with each entry's search outcome
given as an oracle. -/
def runValidate (existing : List BibEntry)
    (items : List (BibEntry × SearchOutcome)) : VState :=
  items.enum.foldl validateStep (initVState existing)

/-! ## Identifier extractor (`check_semantic.py`, `bs_check.py`) -/

/-- Characters matched by the capture class `[\w\.\-v]` (ASCII `\w`). -/
def isIdChar (c : Char) : Bool :=
  c.isAlphanum || c == '_' || c == '.' || c == '-'

/-- Case-insensitive literal prefix match; returns the rest of the input. -/
def matchPrefixCI : List Char → List Char → Option (List Char)
  | [], cs => some cs
  | _ :: _, [] => none
  | p :: ps, c :: cs => if c.toLower == p then matchPrefixCI ps cs else none

/-- `re.search(r'arxiv\.org/abs/([\w\.\-v]+)', value, re.IGNORECASE)`:
leftmost position where the literal matches case-insensitively and at least
one id character follows; the capture is the maximal id-character run. -/
def scanAbsPat : List Char → Option (List Char)
  | [] => none
  | c :: rest =>
      match matchPrefixCI "arxiv.org/abs/".toList (c :: rest) with
      | some after =>
          let cap := after.takeWhile isIdChar
          if cap ≠ [] then some cap else scanAbsPat rest
      | none => scanAbsPat rest

/-- `re.search(r'arxiv\s*:\s*([\w\.\-v]+)', value, re.IGNORECASE)`. -/
def scanColonPat : List Char → Option (List Char)
  | [] => none
  | c :: rest =>
      match matchPrefixCI "arxiv".toList (c :: rest) with
      | some after =>
          match after.dropWhile (fun c => c.isWhitespace) with
          | ':' :: after3 =>
              let cap :=
                (after3.dropWhile (fun c => c.isWhitespace)).takeWhile isIdChar
              if cap ≠ [] then some cap else scanColonPat rest
          | _ => scanColonPat rest
      | none => scanColonPat rest

/-- `parse_arxiv_id_from_text` (identical in `check_semantic.py` and
`bs_check.py`): URL pattern first, then the `arXiv: <id>` pattern. -/
def parse_arxiv_id_from_text (value : String) : Option String :=
  match scanAbsPat value.toList with
  | some cap => some (String.mk cap)
  | none =>
      match scanColonPat value.toList with
      | some cap => some (String.mk cap)
      | none => none

/-- Step 1 of `check_semantic.main` / `bs_check.main`: the structured
`archiveprefix`/`eprint` pair wins outright (case-insensitive prefix,
non-empty id); otherwise the free-text fields are scanned in the order
`[booktitle, url, title]`.  (`archivePfx` is the BibTeX field
`archiveprefix`.) -/
def detect_arxiv_id (archivePfx eprint booktitle url title : String) :
    Option String :=
  if pyLower archivePfx = "arxiv" ∧ eprint ≠ "" then some eprint
  else [booktitle, url, title].findSome? parse_arxiv_id_from_text

/-! ## Flagged-report line parser (`cvf_openreview.py`, `final_filter.py`)

The Python pattern is `^\[(?P<id>[^\]]+)\].+['\"](?P<title>[^'\"]+)['\"].*`.
Backtracking of the greedy `.+` means: take the largest position `p ≥ 1`
after the id's closing bracket that holds a quote char followed by a
non-empty quote-free run and then another quote char. -/

/-- Either quote character of the character class `['\"]`. -/
def isQuote (c : Char) : Bool := c == '\'' || c == '"'

/-- Does position `p` open a quoted title?  (`p ≥ 1` because of `.+`.) -/
def validOpen (cs : List Char) (p : Nat) : Bool :=
  decide (1 ≤ p) &&
  (match cs.get? p with
   | some c => isQuote c
   | none => false) &&
  (let t := (cs.drop (p + 1)).takeWhile (fun c => !(isQuote c))
   !t.isEmpty && !((cs.drop (p + 1)).drop t.length).isEmpty)

/-- Largest valid opening position `≤ p`, scanning downwards (the greedy
`.+` tries the longest gap first). -/
def findOpenDown (cs : List Char) : Nat → Option Nat
  | 0 => none
  | p + 1 => if validOpen cs (p + 1) then some (p + 1) else findOpenDown cs p

/-- The quoted-title group matched against the text after `]`, if any. -/
def findTitle (cs : List Char) : Option (List Char) :=
  match findOpenDown cs cs.length with
  | some p => some ((cs.drop (p + 1)).takeWhile (fun c => !(isQuote c)))
  | none => none

/-- The fallback `re.search(r"\[(?P<id>[^\]]+)\]", line)`: leftmost `[`
followed by a non-empty `]`-free run and a `]`. -/
def bracketSearch : List Char → Option (List Char)
  | [] => none
  | c :: rest =>
      if c == '[' then
        let id := rest.takeWhile (fun c => c ≠ ']')
        if id ≠ [] ∧ (rest.drop id.length) ≠ [] then some id
        else bracketSearch rest
      else bracketSearch rest

/-- One line of `load_flagged_references` (identical in `cvf_openreview.py`
and `final_filter.py`): `(ref_id, some title)` on a full match, else the
bracket-only fallback with `None` title, else `("UNKNOWN", None)`. -/
def load_flagged_line (line : String) : String × Option String :=
  let cs := line.toList
  let fallback : String × Option String :=
    match bracketSearch cs with
    | some id => (pyStrip (String.mk id), none)
    | none => ("UNKNOWN", none)
  match cs with
  | '[' :: rest =>
      let id := rest.takeWhile (fun c => c ≠ ']')
      if id ≠ [] ∧ (rest.drop id.length) ≠ [] then
        match findTitle ((rest.drop id.length).tail) with
        | some t => (pyStrip (String.mk id), some (pyStrip (String.mk t)))
        | none => fallback
      else fallback
  | _ => fallback

/-- `load_flagged_references`: strip each line, skip blank lines, parse the
rest. -/
def load_flagged_references (lines : List String) :
    List (String × Option String) :=
  ((lines.map pyStrip).filter (fun l => l ≠ "")).map load_flagged_line

/-! ## Claim theorems -/

/-- C6 counterexample: the claimed symmetry of `similarity` is false.
`SequenceMatcher` is order-sensitive: `similarity "tide" "diet" = 1/4`
(single matching block `t`) while `similarity "diet" "tide" = 1/2`
(blocks `d` and `e`). -/
theorem similarity_asymmetric_cex :
    similarity "tide" "diet" ≠ similarity "diet" "tide" := by
  have h1 : matchSum ['t', 'i', 'd', 'e'] ['d', 'i', 'e', 't'] 0 4 0 4 = 1 := by
    decide
  have h2 : matchSum ['d', 'i', 'e', 't'] ['t', 'i', 'd', 'e'] 0 4 0 4 = 2 := by
    decide
  unfold similarity ratio
  norm_num [h1, h2]

/-- C6 (amended): the fuzzy `similarity` score always lies in `[0, 1]` and is
reflexive (`similarity a a = 1`, in particular for non-empty `a`); the
symmetry part of the original claim is refuted by
`similarity_asymmetric_cex`. -/
theorem similarity_bounds_and_reflexive (a b : String) :
    0 ≤ similarity a b ∧ similarity a b ≤ 1 ∧ similarity a a = 1 :=
  ⟨ratio_nonneg a.toList b.toList, ratio_le_one a.toList b.toList,
    similarity_self a⟩

/-- C8: for a fixed bibliography author list, appending author strings to the
candidate author list never lowers the greedy overlap fraction, and an
entry that passed `authors_overlap_fuzzy` still passes after the candidate
list is extended. -/
theorem overlap_fraction_monotone (bib_authors found_authors extra : List String) :
    overlapFraction bib_authors found_authors ≤
      overlapFraction bib_authors (found_authors ++ extra) ∧
    (authors_overlap_fuzzy bib_authors found_authors = true →
      authors_overlap_fuzzy bib_authors (found_authors ++ extra) = true) := by
  refine ⟨overlapFraction_mono bib_authors found_authors extra, ?_⟩
  intro h
  unfold authors_overlap_fuzzy at h ⊢
  split at h
  · next he => rw [if_pos he]
  · next he =>
      rw [if_neg he]
      have hle := of_decide_eq_true h
      exact decide_eq_true
        (le_trans hle (overlapFraction_mono bib_authors found_authors extra))

/-- C4: a transport failure, a non-200 status or an unparseable payload makes
each adapter report no match (`false`) instead of raising, and after
Crossref fails this way the cascade still consults ArXiv. -/
theorem adapter_failures_yield_no_match (bib_title : String)
    (bib_authors : List String) (f : Fetch (List Candidate))
    (g : Fetch (List String)) (af : Fetch (List Candidate))
    (hf : f = .transportError ∨ (∃ s p, f = .response s p ∧ s ≠ 200) ∨
      ∃ s, f = .response s none)
    (hg : g = .transportError ∨ (∃ s p, g = .response s p ∧ s ≠ 200) ∨
      ∃ s, g = .response s none) :
    find_on_crossref bib_title bib_authors f = false ∧
    find_on_arxiv bib_title bib_authors f = false ∧
    search_cvf bib_title g = false ∧
    (checkEntryPair bib_title bib_authors f af).2 =
      find_on_arxiv bib_title bib_authors af := by
  have hxf : find_on_crossref bib_title bib_authors f = false := by
    rcases hf with h | ⟨s, p, h, hs⟩ | ⟨s, h⟩
    · rw [h]; rfl
    · rw [h]; simp [find_on_crossref, hs]
    · rw [h]; simp [find_on_crossref]
  have haf : find_on_arxiv bib_title bib_authors f = false := by
    rcases hf with h | ⟨s, p, h, hs⟩ | ⟨s, h⟩
    · rw [h]; rfl
    · rw [h]; simp [find_on_arxiv, hs]
    · rw [h]; simp [find_on_arxiv]
  have hcvf : search_cvf bib_title g = false := by
    rcases hg with h | ⟨s, p, h, hs⟩ | ⟨s, h⟩
    · rw [h]; rfl
    · rw [h]; simp [search_cvf, hs]
    · rw [h]; simp [search_cvf]
  refine ⟨hxf, haf, hcvf, ?_⟩
  unfold checkEntryPair
  rw [hxf]
  rfl

theorem adapter_failures_yield_no_match_witness :
    find_on_crossref "t" [] .transportError = false ∧
    find_on_arxiv "t" [] .transportError = false ∧
    search_cvf "t" (.response 404 (some [])) = false ∧
    (checkEntryPair "t" [] .transportError .transportError).2 =
      find_on_arxiv "t" [] .transportError :=
  adapter_failures_yield_no_match "t" [] .transportError (.response 404 (some []))
    .transportError (Or.inl rfl) (Or.inr (Or.inl ⟨404, some [], rfl, by decide⟩))

/-- C2: when the first adapter of a cascade accepts an entry, the cascade
stops there (only adapter index 0 is invoked); a cascade reports failure
exactly when every adapter rejected the entry; and at the source level a
Crossref acceptance prevents the ArXiv lookup. -/
theorem cascade_short_circuit {α : Type} (a : α → Bool)
    (rest : List (α → Bool)) (e : α) (ha : a e = true) :
    cascadeTrace (a :: rest) e = ([0], true) ∧
    (∀ (fs : List (α → Bool)) (x : α),
      (cascadeTrace fs x).2 = false ↔ ∀ f ∈ fs, f x = false) ∧
    (∀ (bib_title : String) (bib_authors : List String)
        (xf af : Fetch (List Candidate)),
      find_on_crossref bib_title bib_authors xf = true →
      checkEntryPair bib_title bib_authors xf af = (true, false)) ∧
    (∀ (entry_id title authors_str : String)
        (xf af : Fetch (List Candidate)),
      pyStrip title ≠ "" →
      ((processEntry entry_id title authors_str xf af).isSome ↔
        (find_on_crossref (pyStrip title) (splitAuthors authors_str) xf = false ∧
         find_on_arxiv (pyStrip title) (splitAuthors authors_str) af = false))) := by
  refine ⟨by simp [cascadeTrace, ha], ?_, ?_, ?_⟩
  · intro fs x
    induction fs with
    | nil => simp [cascadeTrace]
    | cons f fs ih =>
        by_cases hfx : f x = true
        · simp [cascadeTrace, hfx]
        · simp only [Bool.not_eq_true] at hfx
          simp [cascadeTrace, hfx, ih]
  · intro bt ba xf af h
    unfold checkEntryPair
    rw [h]
    rfl
  · intro entry_id title authors_str xf af htitle
    unfold processEntry
    rw [if_neg htitle]
    unfold checkEntryPair
    cases hx : find_on_crossref (pyStrip title) (splitAuthors authors_str) xf
    · cases hax : find_on_arxiv (pyStrip title) (splitAuthors authors_str) af
      · simp
      · simp
    · simp

theorem cascade_short_circuit_witness :
    cascadeTrace ((fun _ => true) :: [fun _ => false]) (0 : Nat) = ([0], true) ∧
    (∀ (fs : List (Nat → Bool)) (x : Nat),
      (cascadeTrace fs x).2 = false ↔ ∀ f ∈ fs, f x = false) ∧
    (∀ (bib_title : String) (bib_authors : List String)
        (xf af : Fetch (List Candidate)),
      find_on_crossref bib_title bib_authors xf = true →
      checkEntryPair bib_title bib_authors xf af = (true, false)) ∧
    (∀ (entry_id title authors_str : String)
        (xf af : Fetch (List Candidate)),
      pyStrip title ≠ "" →
      ((processEntry entry_id title authors_str xf af).isSome ↔
        (find_on_crossref (pyStrip title) (splitAuthors authors_str) xf = false ∧
         find_on_arxiv (pyStrip title) (splitAuthors authors_str) af = false))) :=
  cascade_short_circuit (fun _ => true) [fun _ => false] 0 rfl

/-- C9: the identifier extractor returns the structured `eprint` immediately
whenever `archiveprefix` names arXiv case-insensitively and `eprint` is
non-empty (no free-text scanning, for every free-text content); otherwise
it scans `booktitle`, `url`, `title` in that order and returns the first
pattern match, or `none` when no field matches; both recognizer patterns
extract `1706.03762`, and the claim's structured scenario returns it. -/
theorem identifier_extractor_spec :
    (∀ archivePfx eprint booktitle url title : String,
      pyLower archivePfx = "arxiv" → eprint ≠ "" →
      detect_arxiv_id archivePfx eprint booktitle url title = some eprint) ∧
    (∀ archivePfx eprint booktitle url title : String,
      ¬ (pyLower archivePfx = "arxiv" ∧ eprint ≠ "") →
      detect_arxiv_id archivePfx eprint booktitle url title =
        [booktitle, url, title].findSome? parse_arxiv_id_from_text) ∧
    (∀ booktitle url title : String,
      parse_arxiv_id_from_text booktitle = none →
      parse_arxiv_id_from_text url = none →
      parse_arxiv_id_from_text title = none →
      [booktitle, url, title].findSome? parse_arxiv_id_from_text = none) ∧
    parse_arxiv_id_from_text "see arxiv.org/abs/1706.03762 page" =
      some "1706.03762" ∧
    parse_arxiv_id_from_text "arXiv: 1706.03762" = some "1706.03762" ∧
    (∀ booktitle url title : String,
      detect_arxiv_id "arXiv" "1706.03762" booktitle url title =
        some "1706.03762") := by
  have hstruct : ∀ archivePfx eprint booktitle url title : String,
      pyLower archivePfx = "arxiv" → eprint ≠ "" →
      detect_arxiv_id archivePfx eprint booktitle url title = some eprint := by
    intro ap ep bt u t h1 h2
    unfold detect_arxiv_id
    rw [if_pos ⟨h1, h2⟩]
  refine ⟨hstruct, ?_, ?_, by decide, by decide, ?_⟩
  · intro ap ep bt u t h
    unfold detect_arxiv_id
    rw [if_neg h]
  · intro bt u t h1 h2 h3
    simp [List.findSome?_cons, h1, h2, h3]
  · intro bt u t
    exact hstruct "arXiv" "1706.03762" bt u t (by decide) (by decide)

/-! ### C10: the flagged-line parser -/

theorem takeWhile_append_stop (p : Char → Bool) :
    ∀ (l : List Char), (∀ c ∈ l, p c = true) → ∀ (x : Char), p x = false →
      ∀ (r : List Char), (l ++ x :: r).takeWhile p = l := by
  intro l
  induction l with
  | nil =>
      intro _ x hx r
      simp [List.takeWhile_cons, hx]
  | cons c l ih =>
      intro hl x hx r
      have hc : p c = true := hl c (by simp)
      rw [List.cons_append, List.takeWhile_cons_of_pos hc,
        ih (fun d hd => hl d (by simp [hd])) x hx r]

theorem findOpenDown_skip (cs : List Char) :
    ∀ (hi lo : Nat), lo ≤ hi →
      (∀ pp, lo < pp → pp ≤ hi → validOpen cs pp = false) →
      findOpenDown cs hi = findOpenDown cs lo := by
  intro hi
  induction hi with
  | zero =>
      intro lo hlo _
      have h0 : lo = 0 := by omega
      rw [h0]
  | succ h ih =>
      intro lo hlo hf
      rcases Nat.eq_or_lt_of_le hlo with heq | hlt
      · rw [heq]
      · have hv : validOpen cs (h + 1) = false := hf (h + 1) (by omega) (le_refl _)
        simp only [findOpenDown, hv]
        exact ih lo (by omega) (fun pp p1 p2 => hf pp p1 (by omega))

theorem findOpenDown_hit (cs : List Char) (lo : Nat) (h1 : 1 ≤ lo)
    (hv : validOpen cs lo = true) : findOpenDown cs lo = some lo := by
  obtain ⟨m, rfl⟩ : ∃ m, lo = m + 1 := ⟨lo - 1, by omega⟩
  simp [findOpenDown, hv]

theorem findTitle_mid (mid t : List Char) (q : Char) (hq : isQuote q = true)
    (hmid : mid ≠ []) (ht : t ≠ []) (htq : ∀ c ∈ t, isQuote c = false) :
    findTitle (mid ++ q :: (t ++ [q])) = some t := by
  have hmidlen : 1 ≤ mid.length := by
    cases mid with
    | nil => exact absurd rfl hmid
    | cons c l => simp
  have hlen : (mid ++ q :: (t ++ [q])).length = mid.length + t.length + 2 := by
    simp
    omega
  have hdropmid : (mid ++ q :: (t ++ [q])).drop (mid.length + 1) = t ++ [q] := by
    rw [show mid ++ q :: (t ++ [q]) = (mid ++ [q]) ++ (t ++ [q]) by simp]
    rw [show mid.length + 1 = (mid ++ [q]).length by simp]
    exact List.drop_left _ _
  have htake : (t ++ [q]).takeWhile (fun c => !(isQuote c)) = t :=
    takeWhile_append_stop _ t (fun c hc => by rw [htq c hc]; rfl) q
      (by rw [hq]; rfl) []
  have hvopen : validOpen (mid ++ q :: (t ++ [q])) mid.length = true := by
    unfold validOpen
    have hget : (mid ++ q :: (t ++ [q])).get? mid.length = some q := by
      rw [List.get?_append_right (le_refl _)]
      simp
    have hrest : (t ++ [q]).drop t.length = [q] := by
      rw [show t.length = t.length + 0 from rfl]
      simp [List.drop_append]
    rw [hget, hdropmid, htake]
    simp [hq, hmidlen, ht, hrest]
  have hvinvalid : ∀ pp, mid.length < pp →
      pp ≤ (mid ++ q :: (t ++ [q])).length →
      validOpen (mid ++ q :: (t ++ [q])) pp = false := by
    intro pp h1 h2
    unfold validOpen
    by_cases hp1 : pp ≤ mid.length + t.length
    · obtain ⟨c, hc, hcget⟩ : ∃ c, c ∈ t ∧
          (mid ++ q :: (t ++ [q])).get? pp = some c := by
        obtain ⟨k, hk⟩ : ∃ k, pp - mid.length = k + 1 :=
          ⟨pp - mid.length - 1, by omega⟩
        have hklt : k < t.length := by omega
        obtain ⟨c, hcget⟩ : ∃ c, t.get? k = some c :=
          ⟨t.get ⟨k, hklt⟩, List.get?_eq_get hklt⟩
        refine ⟨c, List.get?_mem hcget, ?_⟩
        rw [List.get?_append_right (by omega), hk, List.get?_cons_succ,
          List.get?_append hklt, hcget]
      rw [hcget]
      simp [htq c hc]
    · by_cases hp2 : pp = mid.length + t.length + 1
      · have hdrop : (mid ++ q :: (t ++ [q])).drop (pp + 1) = [] := by
          apply List.drop_eq_nil_of_le
          omega
        rw [hdrop]
        simp
      · have hnone : (mid ++ q :: (t ++ [q])).get? pp = none := by
          apply List.get?_eq_none.mpr
          omega
        rw [hnone]
        simp
  unfold findTitle
  rw [findOpenDown_skip _ _ mid.length (by omega)
      (fun pp p1 p2 => hvinvalid pp p1 p2),
    findOpenDown_hit _ mid.length hmidlen hvopen]
  simp [hdropmid, htake]

/-- C10 (amended): the parser recovers the leading bracketed id, and a
quoted substring is returned as the title exactly when its opening quote
sits at least one character after the id's closing bracket (the pattern's
greedy `.+`); `flagged_line_adjacent_quote_cex` refutes the original
claim's unconditional "if a quoted substring exists it is returned".  For
a line `[id]<mid><q><t><q>` with non-empty `id` (no `]`), non-empty gap
`mid`, quote `q` and non-empty quote-free `t`, the parse yields
`(id.strip, some t.strip)`. -/
theorem flagged_line_parses_quoted_title (id mid t : List Char) (q : Char)
    (hid : id ≠ []) (hidq : ']' ∉ id)
    (hq : isQuote q = true)
    (hmid : mid ≠ [])
    (ht : t ≠ []) (htq : ∀ c ∈ t, isQuote c = false) :
    load_flagged_line
        (String.mk ('[' :: (id ++ ']' :: (mid ++ q :: (t ++ [q]))))) =
      (pyStrip (String.mk id), some (pyStrip (String.mk t))) := by
  have htoList : (String.mk ('[' :: (id ++ ']' :: (mid ++ q :: (t ++ [q]))))).toList
      = '[' :: (id ++ ']' :: (mid ++ q :: (t ++ [q]))) := rfl
  have htakeid : (id ++ ']' :: (mid ++ q :: (t ++ [q]))).takeWhile
      (fun c => decide (c ≠ ']')) = id := by
    apply takeWhile_append_stop
    · intro c hc
      simp only [decide_eq_true_eq]
      intro he
      exact hidq (he ▸ hc)
    · simp
  have hdropid : (id ++ ']' :: (mid ++ q :: (t ++ [q]))).drop id.length
      = ']' :: (mid ++ q :: (t ++ [q])) := List.drop_left _ _
  unfold load_flagged_line
  rw [htoList]
  simp only []
  rw [htakeid, hdropid]
  simp only [List.tail_cons]
  rw [if_pos ⟨hid, by simp⟩, findTitle_mid mid t q hq hmid ht htq]

theorem flagged_line_parses_quoted_title_witness :
    load_flagged_line
        "[smith2020] No match in Crossref or ArXiv for 'Deep Learning Systems'" =
      ("smith2020", some "Deep Learning Systems") := by
  have h := flagged_line_parses_quoted_title "smith2020".toList
    " No match in Crossref or ArXiv for ".toList
    "Deep Learning Systems".toList '\''
    (by decide) (by decide) (by decide) (by decide) (by decide) (by decide)
  rw [show String.mk ('[' :: ("smith2020".toList ++ ']' ::
      (" No match in Crossref or ArXiv for ".toList ++ '\'' ::
        ("Deep Learning Systems".toList ++ ['\''])))) =
      "[smith2020] No match in Crossref or ArXiv for 'Deep Learning Systems'"
    from by decide] at h
  rw [show pyStrip (String.mk "smith2020".toList) = "smith2020" from by decide] at h
  rw [show pyStrip (String.mk "Deep Learning Systems".toList) =
      "Deep Learning Systems" from by decide] at h
  exact h

/-- C10 counterexample: the line `[x]'T'` holds the quoted substring `'T'`,
yet the parser returns no title (the regex `.+` needs a character between
`]` and the opening quote), falling back to the bracket-only parse. -/
theorem flagged_line_adjacent_quote_cex :
    "[x]'T'".toList = ['[', 'x', ']', '\'', 'T', '\''] ∧
    load_flagged_line "[x]'T'" = ("x", none) := ⟨by decide, by decide⟩

/-! ### C5 and C3: the checkpointed main loop of `validate.py` -/

theorem validateStep_exit (s : VState) (x : Nat × (BibEntry × SearchOutcome))
    (h : s.exit.isSome) : validateStep s x = s := by
  unfold validateStep
  rw [if_pos h]

theorem foldl_validateStep_exit :
    ∀ (l : List (Nat × (BibEntry × SearchOutcome))) (s : VState),
      s.exit.isSome → l.foldl validateStep s = s := by
  intro l
  induction l with
  | nil => intro s _; rfl
  | cons x l ih =>
      intro s h
      rw [List.foldl_cons, validateStep_exit s x h]
      exact ih s h

theorem validateStep_skip (s : VState) (x : Nat × (BibEntry × SearchOutcome))
    (h : (if hasField x.2.1 "ID" then getField x.2.1 "ID"
      else "UNKNOWN_" ++ toString x.1) ∈ s.processed) : validateStep s x = s := by
  simp only [validateStep]
  split <;> first
    | rfl
    | exact absurd h (by assumption)

theorem foldl_validateStep_skip :
    ∀ (l : List (Nat × (BibEntry × SearchOutcome))) (s : VState),
      (∀ p ∈ l, (if hasField p.2.1 "ID" then getField p.2.1 "ID"
        else "UNKNOWN_" ++ toString p.1) ∈ s.processed) →
      l.foldl validateStep s = s := by
  intro l
  induction l with
  | nil => intro s _; rfl
  | cons x l ih =>
      intro s h
      rw [List.foldl_cons, validateStep_skip s x (h x (by simp))]
      exact ih s (fun p hp => h p (by simp [hp]))

/-- C5: re-running `validate.main` when every incoming entry id is already
in the checkpoint output is the identity: no external lookup happens, no
write happens, and the corrected database is byte-for-byte the prior
output. -/
theorem checkpoint_rerun_identity (existing : List BibEntry)
    (items : List (BibEntry × SearchOutcome))
    (h : ∀ p ∈ items.enum,
      (if hasField p.2.1 "ID" then getField p.2.1 "ID"
       else "UNKNOWN_" ++ toString p.1) ∈ (initVState existing).processed) :
    runValidate existing items = initVState existing ∧
    (runValidate existing items).lookups = 0 ∧
    (runValidate existing items).writes = [] ∧
    (runValidate existing items).corrected = existing := by
  have heq : runValidate existing items = initVState existing := by
    unfold runValidate
    exact foldl_validateStep_skip items.enum (initVState existing) h
  refine ⟨heq, ?_, ?_, ?_⟩ <;> rw [heq] <;> rfl

theorem checkpoint_rerun_identity_witness :
    runValidate [[("ID", "a"), ("title", "T")]]
        [([("ID", "a"), ("title", "T")], SearchOutcome.noMatch)] =
      initVState [[("ID", "a"), ("title", "T")]] ∧
    (runValidate [[("ID", "a"), ("title", "T")]]
        [([("ID", "a"), ("title", "T")], SearchOutcome.noMatch)]).lookups = 0 ∧
    (runValidate [[("ID", "a"), ("title", "T")]]
        [([("ID", "a"), ("title", "T")], SearchOutcome.noMatch)]).writes = [] ∧
    (runValidate [[("ID", "a"), ("title", "T")]]
        [([("ID", "a"), ("title", "T")], SearchOutcome.noMatch)]).corrected =
      [[("ID", "a"), ("title", "T")]] :=
  checkpoint_rerun_identity [[("ID", "a"), ("title", "T")]]
    [([("ID", "a"), ("title", "T")], SearchOutcome.noMatch)] (by decide)

/-- C3 (amended): in `validate.main` ANY search exception — not only the
blocked-client signal — persists the accumulated results to disk and
terminates the run with exit code 1, leaving every remaining entry
unprocessed; `error_outcome_halts_run_cex` refutes the original claim that
a single source failure never halts the remaining bibliography. -/
theorem failure_persists_and_halts (s : VState)
    (x : Nat × (BibEntry × SearchOutcome))
    (rest : List (Nat × (BibEntry × SearchOutcome)))
    (hexit : s.exit = none)
    (hout : x.2.2 = SearchOutcome.blocked ∨ x.2.2 = SearchOutcome.error)
    (hid : (if hasField x.2.1 "ID" then getField x.2.1 "ID"
      else "UNKNOWN_" ++ toString x.1) ∉ s.processed)
    (htitle : pyStrip (getField x.2.1 "title") ≠ "") :
    (rest.foldl validateStep (validateStep s x)).exit = some 1 ∧
    (rest.foldl validateStep (validateStep s x)).writes =
      s.writes ++ [s.corrected] ∧
    (rest.foldl validateStep (validateStep s x)).corrected = s.corrected ∧
    (rest.foldl validateStep (validateStep s x)).processed = s.processed := by
  have hstep : validateStep s x =
      { s with
          lookups := s.lookups + 1
          writes := s.writes ++ [s.corrected]
          exit := some 1 } := by
    simp only [validateStep]
    rw [if_neg (by rw [hexit]; simp)]
    rw [if_neg hid]
    rw [if_neg htitle]
    rcases hout with h | h <;> rw [h]
  rw [foldl_validateStep_exit rest _ (by rw [hstep]; rfl)]
  rw [hstep]
  exact ⟨rfl, rfl, rfl, rfl⟩

theorem failure_persists_and_halts_witness :
    (([(1, ([("ID", "b"), ("title", "U")], SearchOutcome.noMatch))] :
        List (Nat × (BibEntry × SearchOutcome))).foldl validateStep
      (validateStep (initVState [])
        (0, ([("ID", "a"), ("title", "T")], SearchOutcome.error)))).exit =
      some 1 ∧
    (([(1, ([("ID", "b"), ("title", "U")], SearchOutcome.noMatch))] :
        List (Nat × (BibEntry × SearchOutcome))).foldl validateStep
      (validateStep (initVState [])
        (0, ([("ID", "a"), ("title", "T")], SearchOutcome.error)))).writes =
      (initVState []).writes ++ [(initVState []).corrected] ∧
    (([(1, ([("ID", "b"), ("title", "U")], SearchOutcome.noMatch))] :
        List (Nat × (BibEntry × SearchOutcome))).foldl validateStep
      (validateStep (initVState [])
        (0, ([("ID", "a"), ("title", "T")], SearchOutcome.error)))).corrected =
      (initVState []).corrected ∧
    (([(1, ([("ID", "b"), ("title", "U")], SearchOutcome.noMatch))] :
        List (Nat × (BibEntry × SearchOutcome))).foldl validateStep
      (validateStep (initVState [])
        (0, ([("ID", "a"), ("title", "T")], SearchOutcome.error)))).processed =
      (initVState []).processed :=
  failure_persists_and_halts (initVState [])
    (0, ([("ID", "a"), ("title", "T")], SearchOutcome.error))
    [(1, ([("ID", "b"), ("title", "U")], SearchOutcome.noMatch))]
    rfl (Or.inr rfl) (by decide) (by decide)

/-- C3 counterexample: a generic search error on the first entry exits with
code 1 and entry `b` is never processed, though the same entry `b` is
processed by a run without the failing entry. -/
theorem error_outcome_halts_run_cex :
    (runValidate [] [([("ID", "a"), ("title", "T")], SearchOutcome.error),
        ([("ID", "b"), ("title", "U")], SearchOutcome.noMatch)]).exit =
      some 1 ∧
    (runValidate [] [([("ID", "a"), ("title", "T")], SearchOutcome.error),
        ([("ID", "b"), ("title", "U")], SearchOutcome.noMatch)]).processed =
      [] ∧
    (runValidate []
        [([("ID", "b"), ("title", "U")], SearchOutcome.noMatch)]).processed =
      ["b"] :=
  ⟨by decide, by decide, by decide⟩

/-! ### C1: the merge engine -/

theorem getField_cons (p : String × String) (e : BibEntry) (f : String) :
    getField (p :: e) f = if (p.1 == f) = true then p.2 else getField e f := by
  unfold getField
  by_cases hp : (p.1 == f) = true
  · rw [List.find?_cons_of_pos (p := fun q : String × String => q.1 == f) _ hp, if_pos hp]
  · rw [List.find?_cons_of_neg (p := fun q : String × String => q.1 == f) _ hp, if_neg hp]

theorem getField_map_set (f' v f : String) (h : f' ≠ f) :
    ∀ e : BibEntry,
      getField (e.map (fun p => if p.1 == f' then (p.1, v) else p)) f =
        getField e f := by
  intro e
  induction e with
  | nil => rfl
  | cons p e ih =>
      have hfst : (if (p.1 == f') = true then (p.1, v) else p).1 = p.1 := by
        split <;> rfl
      simp only [List.map_cons]
      rw [getField_cons, getField_cons, hfst]
      by_cases hpf : (p.1 == f) = true
      · rw [if_pos hpf, if_pos hpf]
        have hne : (p.1 == f') = false := by
          rw [beq_iff_eq] at hpf
          exact beq_eq_false_iff_ne.mpr (fun hh => h (by rw [← hh, hpf]))
        rw [if_neg (by simp [hne])]
      · rw [if_neg hpf, if_neg hpf]
        exact ih

theorem getField_setField_ne (e : BibEntry) (f' v f : String) (h : f' ≠ f) :
    getField (setField e f' v) f = getField e f := by
  unfold setField
  split
  · exact getField_map_set f' v f h e
  · unfold getField
    rw [List.find?_append]
    cases hf : e.find? (fun p => p.1 == f) with
    | some p => rfl
    | none =>
        rw [List.find?_cons_of_neg _ (by simp; exact fun hh => h hh),
          List.find?_nil]
        rfl

theorem mergeStep_fst (st : BibEntry × List (String × String × String))
    (fv : String × String) (f : String) (hne : getField st.1 f ≠ "") :
    getField (mergeStep st fv).1 f = getField st.1 f := by
  simp only [mergeStep]
  split
  · rfl
  · split
    · next hfill =>
        by_cases hf : fv.1 = f
        · exact absurd (hf ▸ hfill.1) hne
        · exact getField_setField_ne st.1 fv.1 fv.2 f hf
    · split
      · rfl
      · rfl

theorem mergeStep_snd_mono (st : BibEntry × List (String × String × String))
    (fv : String × String) (e : String × String × String) (h : e ∈ st.2) :
    e ∈ (mergeStep st fv).2 := by
  simp only [mergeStep]
  split
  · exact h
  · split
    · exact h
    · split
      · exact List.mem_append_left _ h
      · exact h

theorem foldl_mergeStep_fst (f : String) :
    ∀ (l : List (String × String))
      (st : BibEntry × List (String × String × String)),
      getField st.1 f ≠ "" →
      getField (l.foldl mergeStep st).1 f = getField st.1 f := by
  intro l
  induction l with
  | nil => intro st _; rfl
  | cons fv l ih =>
      intro st h
      rw [List.foldl_cons,
        ih (mergeStep st fv) (by rw [mergeStep_fst st fv f h]; exact h),
        mergeStep_fst st fv f h]

theorem foldl_mergeStep_snd_mono (e : String × String × String) :
    ∀ (l : List (String × String))
      (st : BibEntry × List (String × String × String)),
      e ∈ st.2 → e ∈ (l.foldl mergeStep st).2 := by
  intro l
  induction l with
  | nil => intro st h; exact h
  | cons fv l ih =>
      intro st h
      rw [List.foldl_cons]
      exact ih (mergeStep st fv) (mergeStep_snd_mono st fv e h)

theorem foldl_mergeStep_event (f v : String) (hID : f ≠ "ID")
    (hTY : f ≠ "ENTRYTYPE") (hv : v ≠ "") :
    ∀ (l : List (String × String))
      (st : BibEntry × List (String × String × String)),
      (f, v) ∈ l → getField st.1 f ≠ "" →
      pyStrip (getField st.1 f) ≠ pyStrip v →
      (f, getField st.1 f, v) ∈ (l.foldl mergeStep st).2 := by
  intro l
  induction l with
  | nil => intro st h; simp at h
  | cons fv l ih =>
      intro st hmem hne hdiff
      rw [List.foldl_cons]
      rcases List.mem_cons.mp hmem with heq | hmem'
      · apply foldl_mergeStep_snd_mono
        rw [← heq]
        simp only [mergeStep]
        rw [if_neg (by simp [hID, hTY])]
        rw [if_neg (by simp [hne])]
        rw [if_pos ⟨hne, hv, hdiff⟩]
        simp
      · have h2 := ih (mergeStep st fv) hmem'
          (by rw [mergeStep_fst st fv f hne]; exact hne)
          (by rw [mergeStep_fst st fv f hne]; exact hdiff)
        rw [mergeStep_fst st fv f hne] at h2
        exact h2

theorem mergePubStep_fst (pub : BibEntry)
    (st : BibEntry × List (String × String × String)) (field f : String)
    (hne : getField st.1 f ≠ "") :
    getField (mergePubStep pub st field).1 f = getField st.1 f := by
  have hsetb : ∀ v, getField st.1 "booktitle" = "" →
      getField (setField st.1 "booktitle" v) f = getField st.1 f := by
    intro v hb
    apply getField_setField_ne
    intro hbf
    exact hne (hbf ▸ hb)
  have hsetj : ∀ v, getField st.1 "journal" = "" →
      getField (setField st.1 "journal" v) f = getField st.1 f := by
    intro v hb
    apply getField_setField_ne
    intro hbf
    exact hne (hbf ▸ hb)
  have hsetf : ∀ v, getField st.1 field = "" →
      getField (setField st.1 field v) f = getField st.1 f := by
    intro v hb
    apply getField_setField_ne
    intro hbf
    exact hne (hbf ▸ hb)
  simp only [mergePubStep]
  repeat' split
  all_goals try rfl
  all_goals first
    | exact absurd ‹getField st.1 "booktitle" = ""›
        ‹getField st.1 "booktitle" ≠ ""›
    | exact absurd ‹getField st.1 "journal" = ""›
        ‹getField st.1 "journal" ≠ ""›
    | exact absurd rfl ‹¬(("" : String) = "")›
    | exact hsetb _ ‹getField st.1 "booktitle" = ""›
    | exact hsetj _ ‹getField st.1 "journal" = ""›
    | exact hsetb _ (not_not.mp ‹¬getField st.1 "booktitle" ≠ ""›)
    | exact hsetj _ (not_not.mp ‹¬getField st.1 "journal" ≠ ""›)
    | exact hsetf _ ‹getField st.1 field = ""›

theorem foldl_mergePubStep_fst (pub : BibEntry) (f : String) :
    ∀ (l : List String) (st : BibEntry × List (String × String × String)),
      getField st.1 f ≠ "" →
      getField (l.foldl (mergePubStep pub) st).1 f = getField st.1 f := by
  intro l
  induction l with
  | nil => intro st _; rfl
  | cons fld l ih =>
      intro st h
      rw [List.foldl_cons,
        ih (mergePubStep pub st fld)
          (by rw [mergePubStep_fst pub st fld f h]; exact h),
        mergePubStep_fst pub st fld f h]

/-- C1: under the fill-missing-preserve-original merge policy, a non-empty
original field survives both the official merge and the partial fallback
merge unchanged, and when the official value is also non-empty and differs
after stripping, the mismatch event `(field, originalValue, officialValue)`
is recorded. -/
theorem merge_preserves_original_fields (original official pub : BibEntry)
    (f : String) (hf : getField original f ≠ "") :
    getField (merge_entries_preserving_original original official).1 f =
      getField original f ∧
    (∀ v, (f, v) ∈ official → f ≠ "ID" → f ≠ "ENTRYTYPE" → v ≠ "" →
      pyStrip (getField original f) ≠ pyStrip v →
      (f, getField original f, v) ∈
        (merge_entries_preserving_original original official).2) ∧
    getField (merge_pub_fallback original pub).1 f = getField original f := by
  refine ⟨?_, ?_, ?_⟩
  · unfold merge_entries_preserving_original
    exact foldl_mergeStep_fst f official (original, []) hf
  · intro v hmem hID hTY hv hdiff
    unfold merge_entries_preserving_original
    exact foldl_mergeStep_event f v hID hTY hv official (original, []) hmem hf
      hdiff
  · unfold merge_pub_fallback
    exact foldl_mergePubStep_fst pub f _ (original, []) hf

theorem merge_preserves_original_fields_witness :
    getField (merge_entries_preserving_original
        [("title", "A"), ("ID", "k")] [("title", "B "), ("year", "2020")]).1
      "title" = "A" ∧
    ("title", "A", "B ") ∈
      (merge_entries_preserving_original
        [("title", "A"), ("ID", "k")] [("title", "B "), ("year", "2020")]).2 ∧
    getField (merge_pub_fallback [("title", "A"), ("ID", "k")]
        [("title", "C")]).1 "title" = "A" := by
  have h := merge_preserves_original_fields [("title", "A"), ("ID", "k")]
    [("title", "B "), ("year", "2020")] [("title", "C")] "title" (by decide)
  refine ⟨h.1.trans (by decide), ?_, h.2.2.trans (by decide)⟩
  have h2 := h.2.1 "B " (by decide) (by decide) (by decide) (by decide)
    (by decide)
  rw [show getField [("title", "A"), ("ID", "k")] "title" = "A"
    from by decide] at h2
  exact h2

/-! ### C7: the greedy author overlap -/

theorem greedyLoop_le_add (found : List (Nat × String)) :
    ∀ (l : List String) (st : Nat × List Nat),
      (greedyLoop found l st).1 ≤ st.1 + l.length := by
  intro l
  induction l with
  | nil => intro st; simp [greedyLoop]
  | cons bln rest ih =>
      intro st
      simp only [greedyLoop]
      split
      · cases (innerBest bln st.2 found (0, none)).2 with
        | some i =>
            exact le_trans (ih ((st.1 + 1, i :: st.2)))
              (by simp only [List.length_cons]; omega)
        | none =>
            exact le_trans (ih ((st.1 + 1, st.2)))
              (by simp only [List.length_cons]; omega)
      · exact le_trans (ih st) (by simp only [List.length_cons]; omega)

theorem innerBest_dominates (bln : String) (used : List Nat)
    (found : List (Nat × String)) :
    ∀ p ∈ found, p.1 ∉ used →
      fuzzy_ratio bln p.2 ≤ (innerBest bln used found (0, none)).1 := by
  intro p hp hu
  rw [innerBest_zero]
  exact bestOf_le (fun p => fuzzy_ratio bln p.2) _ p
    (List.mem_filter.mpr ⟨hp, by simp [notUsed, hu]⟩)

theorem authors_overlap_iff (bib found : List String) :
    authors_overlap_fuzzy bib found = true ↔
      (lastNames bib = [] ∨ (3 : ℚ)/5 ≤ overlapFraction bib found) := by
  unfold authors_overlap_fuzzy
  split
  · next he => simp [List.isEmpty_iff.mp he]
  · next he =>
      have hne : lastNames bib ≠ [] := by
        simpa [List.isEmpty_iff] using he
      simp [hne]

theorem authors_overlap_scenario :
    overlapFraction (splitAuthors "Doe, John and Lee, Amy")
      ["John Doe", "Amy Lee", "Bob Kim"] = 1 ∧
    authors_overlap_fuzzy (splitAuthors "Doe, John and Lee, Amy")
      ["John Doe", "Amy Lee", "Bob Kim"] = true := by
  have edd : fuzzy_ratio "doe" "doe" = 100 := by
    unfold fuzzy_ratio
    rw [similarity_self]
    norm_num
  have ell : fuzzy_ratio "lee" "lee" = 100 := by
    unfold fuzzy_ratio
    rw [similarity_self]
    norm_num
  have edl : fuzzy_ratio "doe" "lee" = 100/3 := by
    have hm : matchSum ['d', 'o', 'e'] ['l', 'e', 'e'] 0 3 0 3 = 1 := by decide
    unfold fuzzy_ratio similarity ratio
    norm_num [hm]
  have edk : fuzzy_ratio "doe" "kim" = 0 := by
    have hm : matchSum ['d', 'o', 'e'] ['k', 'i', 'm'] 0 3 0 3 = 0 := by decide
    unfold fuzzy_ratio similarity ratio
    norm_num [hm]
  have elk : fuzzy_ratio "lee" "kim" = 0 := by
    have hm : matchSum ['l', 'e', 'e'] ['k', 'i', 'm'] 0 3 0 3 = 0 := by decide
    unfold fuzzy_ratio similarity ratio
    norm_num [hm]
  have hbib : lastNames (splitAuthors "Doe, John and Lee, Amy") =
      ["doe", "lee"] := by decide
  have hfound : lastNames ["John Doe", "Amy Lee", "Bob Kim"] =
      ["doe", "lee", "kim"] := by decide
  have r1 : innerBest "doe" [] [(0, "doe"), (1, "lee"), (2, "kim")] (0, none) =
      (100, some 0) := by
    rw [innerBest, if_neg (by simp : ¬ (0 : Nat) ∈ ([] : List Nat))]
    rw [show (if ((0 : ℚ), (none : Option Nat)).1 < fuzzy_ratio "doe" "doe" then
        (fuzzy_ratio "doe" "doe", some 0)
      else ((0 : ℚ), (none : Option Nat))) = ((100 : ℚ), some 0) from by
        rw [edd]; norm_num]
    rw [innerBest, if_neg (by simp : ¬ (1 : Nat) ∈ ([] : List Nat))]
    rw [show (if ((100 : ℚ), some 0).1 < fuzzy_ratio "doe" "lee" then
        (fuzzy_ratio "doe" "lee", some 1)
      else ((100 : ℚ), some 0)) = ((100 : ℚ), some 0) from by
        rw [edl]; norm_num]
    rw [innerBest, if_neg (by simp : ¬ (2 : Nat) ∈ ([] : List Nat))]
    rw [show (if ((100 : ℚ), some 0).1 < fuzzy_ratio "doe" "kim" then
        (fuzzy_ratio "doe" "kim", some 2)
      else ((100 : ℚ), some 0)) = ((100 : ℚ), some 0) from by
        rw [edk]; norm_num]
    rw [innerBest]
  have r2 : innerBest "lee" [0] [(0, "doe"), (1, "lee"), (2, "kim")] (0, none) =
      (100, some 1) := by
    rw [innerBest, if_pos (by simp : (0 : Nat) ∈ [0])]
    rw [innerBest, if_neg (by simp : ¬ (1 : Nat) ∈ [0])]
    rw [show (if ((0 : ℚ), (none : Option Nat)).1 < fuzzy_ratio "lee" "lee" then
        (fuzzy_ratio "lee" "lee", some 1)
      else ((0 : ℚ), (none : Option Nat))) = ((100 : ℚ), some 1) from by
        rw [ell]; norm_num]
    rw [innerBest, if_neg (by simp : ¬ (2 : Nat) ∈ [0])]
    rw [show (if ((100 : ℚ), some 1).1 < fuzzy_ratio "lee" "kim" then
        (fuzzy_ratio "lee" "kim", some 2)
      else ((100 : ℚ), some 1)) = ((100 : ℚ), some 1) from by
        rw [elk]; norm_num]
    rw [innerBest]
  have hcount : greedyMatchedCount ["doe", "lee"] ["doe", "lee", "kim"] = 2 := by
    unfold greedyMatchedCount
    rw [show (["doe", "lee", "kim"] : List String).enum =
      [(0, "doe"), (1, "lee"), (2, "kim")] from by decide]
    simp only [greedyLoop]
    rw [r1]
    rw [if_pos (by norm_num : (75 : ℚ) ≤ ((100 : ℚ), some 0).1)]
    simp only []
    rw [r2]
    rw [if_pos (by norm_num : (75 : ℚ) ≤ ((100 : ℚ), some 1).1)]
  have hfrac : overlapFraction (splitAuthors "Doe, John and Lee, Amy")
      ["John Doe", "Amy Lee", "Bob Kim"] = 1 := by
    unfold overlapFraction
    rw [hbib, hfound, hcount]
    norm_num
  refine ⟨hfrac, ?_⟩
  unfold authors_overlap_fuzzy
  rw [hbib]
  rw [if_neg (by decide : ¬ (["doe", "lee"] : List String).isEmpty = true)]
  rw [hfrac]
  exact decide_eq_true (by norm_num)

/-- C7: `authors_overlap_fuzzy` passes iff the bibliography lists no authors
or the greedy overlap fraction reaches `MIN_AUTHOR_OVERLAP_FRAC = 0.6`; the
greedy assignment uses each candidate at most once (`matched_count` is
bounded by both list lengths) and scores each bibliography last name by the
maximal fuzzy ratio over unused candidates; the claim's scenario
(`"Doe, John and Lee, Amy"` vs `["John Doe", "Amy Lee", "Bob Kim"]`) gives
fraction `1` and passes. -/
theorem authors_overlap_greedy_spec :
    (∀ bib found : List String,
      authors_overlap_fuzzy bib found = true ↔
        (lastNames bib = [] ∨ (3 : ℚ)/5 ≤ overlapFraction bib found)) ∧
    (∀ bibLast foundLast : List String,
      greedyMatchedCount bibLast foundLast ≤ foundLast.length ∧
      greedyMatchedCount bibLast foundLast ≤ bibLast.length) ∧
    (∀ (bln : String) (used : List Nat) (found : List (Nat × String)),
      ∀ p ∈ found, p.1 ∉ used →
        fuzzy_ratio bln p.2 ≤ (innerBest bln used found (0, none)).1) ∧
    overlapFraction (splitAuthors "Doe, John and Lee, Amy")
      ["John Doe", "Amy Lee", "Bob Kim"] = 1 ∧
    authors_overlap_fuzzy (splitAuthors "Doe, John and Lee, Amy")
      ["John Doe", "Amy Lee", "Bob Kim"] = true := by
  refine ⟨authors_overlap_iff, ?_, innerBest_dominates,
    authors_overlap_scenario.1, authors_overlap_scenario.2⟩
  intro bibLast foundLast
  refine ⟨greedyMatchedCount_le bibLast foundLast, ?_⟩
  unfold greedyMatchedCount
  simpa using greedyLoop_le_add foundLast.enum bibLast (0, [])

end RefValidator
